import Mathlib

/-!
Verification development for the dockerfile-ast parser (TypeScript).

The embedding mirrors the source files `src/parser.ts`, `src/instruction.ts`
and `src/property.ts` at the character-scanning level.  Buffers are lists of
characters; every scanning loop of the source becomes a fuel-indexed
recursive function whose fuel strictly exceeds the number of loop iterations
the source performs, so the canonical entry points (which pass ample fuel)
compute exactly what the source computes.  Sentinel `-1` indices of the
source are kept as `Int` values.  Parts of the library that are not present
in the source tree (dockerfile.ts, parserDirective.ts, util.ts) are modelled
from the specification; their doc comments say so explicitly.
-/

namespace DockerAst

/-- Buffers and token texts are lists of characters (UTF-16-style units). -/
abbrev Buf := List Char

/-- Mirrors TypeScript's `buffer.charAt(i)`; `none` plays the role of the
empty string returned for an out-of-bounds index. -/
def charAt (b : Buf) (i : Nat) : Option Char := b.get? i

/-- Modelled from the spec: `Util.isWhitespace` (util.ts is not in src/);
space, tab and the two line-break characters count as whitespace. -/
def isWhitespace (c : Char) : Bool := c = ' ' ∨ c = '\t' ∨ c = '\r' ∨ c = '\n'

/-- Modelled from the spec: `Util.isNewline` (util.ts is not in src/). -/
def isNewline (c : Char) : Bool := c = '\r' ∨ c = '\n'

/-- Zero-based line/character position, as in vscode-languageserver-types. -/
structure Pos where
  line : Nat
  character : Nat
deriving DecidableEq, Repr

/-- Half-open range of two positions. -/
structure Rng where
  rstart : Pos
  rend : Pos
deriving DecidableEq, Repr

/-- Offsets of the starts of all lines other than line 0, in order; a line
break is `\r\n`, a lone `\r`, or a lone `\n` (mirrors the line-offset table
of the `TextDocument` that `Parser.parse` creates for the buffer). -/
def lineOffsetsAux : List Char → Nat → List Nat
  | [], _ => []
  | '\r' :: '\n' :: rest, i => (i + 2) :: lineOffsetsAux rest (i + 2)
  | '\r' :: rest, i => (i + 1) :: lineOffsetsAux rest (i + 1)
  | '\n' :: rest, i => (i + 1) :: lineOffsetsAux rest (i + 1)
  | _ :: rest, i => lineOffsetsAux rest (i + 1)

/-- Offsets of the starts of all lines, line 0 included. -/
def lineOffsets (b : Buf) : List Nat := 0 :: lineOffsetsAux b 0

/-- Walk the line-start offsets and locate the line containing offset `o`:
the last line start that is `≤ o`.  `l` and `s` accumulate the line index
and line start reached so far. -/
def posFromOffsets : List Nat → Nat → Nat → Nat → Pos
  | [], o, l, s => ⟨l, o - s⟩
  | x :: xs, o, l, s => if x ≤ o then posFromOffsets xs o (l + 1) x else ⟨l, o - s⟩

/-- Mirrors `TextDocument.positionAt`: clamp the offset into the buffer and
read the line/character coordinates off the line-offset table. -/
def positionAt (b : Buf) (offset : Nat) : Pos :=
  posFromOffsets (lineOffsetsAux b 0) (min offset b.length) 0 0

/-- Mirrors `TextDocument.offsetAt`: line start plus character, clamped into
the line (and into the buffer for an out-of-range line). -/
def offsetAt (b : Buf) (p : Pos) : Nat :=
  let offs := lineOffsets b
  if offs.length ≤ p.line then b.length
  else
    let lineOffset := (offs.get? p.line).getD 0
    let next := (offs.get? (p.line + 1)).getD b.length
    max (min (lineOffset + p.character) next) lineOffset

/-- Mirrors `document.getText().substring(s, e)` for `s ≤ e`. -/
def textAt (b : Buf) (s e : Nat) : Buf := (b.take e).drop s

/-- Text covered by a range, resolved through `offsetAt` exactly as
`getRangeContent` in instruction.ts resolves it. -/
def rangeText (b : Buf) (r : Rng) : Buf := textAt b (offsetAt b r.rstart) (offsetAt b r.rend)

/-- Convenience constructor mirroring
`Range.create(document.positionAt(s), document.positionAt(e))`. -/
def mkRng (b : Buf) (s e : Nat) : Rng := ⟨positionAt b s, positionAt b e⟩

/-! ## Leading-directive detection (parser.ts, `Parser.getDirectiveSymbol`) -/

/-- Result of the leading-line scan: a plain comment line or a parser
directive with its name and value ranges. -/
inductive DirSym
  | comm (range : Rng)
  | dir (range nameRange valueRange : Rng)
deriving DecidableEq, Repr

/-- Mirrors the `directiveValue` loop of `getDirectiveSymbol` (parser.ts
lines 109-132): scan after the `=`, recording where the value starts and
where trailing whitespace begins, and where the line ends.  Returns
`(valueStart, valueEnd, lineEnd)` with `-1` sentinels kept as `Int`. -/
def dirValue (b : Buf) : Nat → Nat → Int → Int → Int × Int × Nat
  | 0, _, vs, ve => (vs, ve, b.length)
  | fuel + 1, k, vs, ve =>
    match charAt b k with
    | none => (vs, ve, b.length)
    | some c =>
      if c = '\r' ∨ c = '\n' then
        (vs, if vs ≠ -1 ∧ ve = -1 then (k : Int) else ve, k)
      else if c = '\t' ∨ c = ' ' then
        dirValue b fuel (k + 1) vs (if vs ≠ -1 ∧ ve = -1 then (k : Int) else ve)
      else
        dirValue b fuel (k + 1) (if vs = -1 then (k : Int) else vs) ve

/-- Mirrors the comment-body loop of `getDirectiveSymbol` (parser.ts lines
89-158): after a `#`, look for `name=value`; a line break first makes the
line a plain comment; falling off the end of the buffer without either
returns `none` (the outer loop then resumes one character later). -/
def dirName (b : Buf) : Nat → Nat → Nat → Int → Int → Option DirSym
  | 0, _, _, _, _ => none
  | fuel + 1, cs, j, ds, de =>
    match charAt b j with
    | none => none
    | some c =>
      if c = ' ' ∨ c = '\t' then
        dirName b fuel cs (j + 1) ds (if ds ≠ -1 ∧ de = -1 then (j : Int) else de)
      else if c = '\r' ∨ c = '\n' then
        some (.comm (mkRng b cs j))
      else if c = '=' then
        let de' := if de = -1 then (j : Int) else de
        let v := dirValue b (b.length + 1) (j + 1) (-1) (-1)
        let lineEnd := v.2.2
        let lineRange := mkRng b cs lineEnd
        if ds = -1 then some (.comm lineRange)
        else
          let vs := if v.1 = -1 then (j + 1 : Int) else v.1
          let ve := if v.1 = -1 then (lineEnd : Int) else
                    if v.2.1 = -1 then (b.length : Int) else v.2.1
          some (.dir lineRange (mkRng b ds.toNat de'.toNat) (mkRng b vs.toNat ve.toNat))
      else
        dirName b fuel cs (j + 1) (if ds = -1 then (j : Int) else ds) de

/-- Mirrors the `directiveCheck` loop of `getDirectiveSymbol` (parser.ts
lines 76-163): skip leading spaces and tabs; a line break or any
non-comment character means no directive or leading comment exists. -/
def dirOuter (b : Buf) : Nat → Nat → Option DirSym
  | 0, _ => none
  | fuel + 1, i =>
    match charAt b i with
    | none => none
    | some c =>
      if c = ' ' ∨ c = '\t' then dirOuter b fuel (i + 1)
      else if c = '\r' ∨ c = '\n' then none
      else if c = '#' then
        match dirName b (b.length + 1) i (i + 1) (-1) (-1) with
        | some r => some r
        | none => dirOuter b fuel (i + 1)
      else none

/-- Mirrors `Parser.getDirectiveSymbol` (parser.ts lines 73-165). -/
def getDirectiveSymbol (b : Buf) : Option DirSym := dirOuter b (b.length + 1) 0

/-! ## The main scanning loop (parser.ts, `Parser.parse`) -/

/-- An instruction line as the scanner records it: the keyword text as
scanned (escape sequences already handled), the full line range and the
keyword range.  The concrete subclass chosen by `Parser.createInstruction`
only selects derived-accessor behaviour, so it is not part of the record. -/
structure InstructionT where
  instruction : Buf
  lineRange : Rng
  instructionRange : Rng
deriving DecidableEq, Repr

/-- Comments and instructions accumulated by the scan, in source order. -/
structure ScanAcc where
  comments : List Rng
  instructions : List InstructionT
deriving DecidableEq, Repr

/-- Outcome of the keyword-internal escape scan (parser.ts lines 233-251):
either the escape turned out to be a line continuation (resume the keyword
at the given index), or a non-whitespace character follows the escaped
whitespace (keep the escape character in the keyword and resume just before
that character), or the buffer ended inside the whitespace run. -/
inductive KwEscRes
  | cont (jNew : Nat)
  | keep (kPos : Nat)
  | eof
deriving DecidableEq, Repr

/-- Mirrors the unnamed `k` loop inside `instructionCheck` (parser.ts lines
233-251), scanning the whitespace that follows an escape character inside a
keyword. -/
def kwEscScan (b : Buf) : Nat → Nat → KwEscRes
  | 0, _ => .eof
  | fuel + 1, k =>
    match charAt b k with
    | none => .eof
    | some c =>
      if c = ' ' ∨ c = '\t' then kwEscScan b fuel (k + 1)
      else if c = '\r' then .cont (k + 1)
      else if c = '\n' then .cont k
      else .keep k

/-- Outcome of the `escapeCheck` loop (parser.ts lines 289-307): either the
argument scan resumes at a new index with a possibly-set escaped flag, or
the loop fell off the end of the buffer leaving the state unchanged. -/
inductive ArgEscRes
  | res (kNew : Nat) (escaped : Bool)
  | off
deriving DecidableEq, Repr

/-- Mirrors the `escapeCheck` loop of `argumentsCheck` (parser.ts lines
289-307). -/
def argEscScan (b : Buf) : Nat → Nat → ArgEscRes
  | 0, _ => .off
  | fuel + 1, l =>
    match charAt b l with
    | none => .off
    | some c =>
      if c = ' ' ∨ c = '\t' then argEscScan b fuel (l + 1)
      else if c = '\r' then .res (l + 1) true
      else if c = '\n' then .res l true
      else .res l false

/-- Outcome of the embedded-comment loop of `argumentsCheck` (parser.ts
lines 312-329): the comment's range plus either the index at which argument
scanning resumes or the fact that the buffer ended inside the comment. -/
inductive ArgCommentRes
  | res (kNew : Nat) (comment : Rng)
  | eofComment (comment : Rng)
deriving DecidableEq, Repr

/-- Mirrors the embedded-comment loop of `argumentsCheck` (parser.ts lines
312-329), started at the `#` of a comment on a continued line. -/
def argCommentScan (b : Buf) (cs : Nat) : Nat → Nat → ArgCommentRes
  | 0, _ => .eofComment (mkRng b cs b.length)
  | fuel + 1, l =>
    match charAt b l with
    | none => .eofComment (mkRng b cs b.length)
    | some c =>
      if c = '\r' then .res (l + 1) (mkRng b cs l)
      else if c = '\n' then .res l (mkRng b cs l)
      else argCommentScan b cs fuel (l + 1)

/-- The labelled loops of `Parser.parse` (parser.ts lines 189-375) as the
modes of one step function: `lineCheck` scans between lines, `commentCk` is
the comment loop of lines 198-211, `instrCheck` is `instructionCheck`
(lines 222-366) and `argsCheck` is `argumentsCheck` (lines 267-341). -/
inductive ScanMode
  | lineCheck (i : Nat)
  | commentCk (cs j : Nat)
  | instrCheck (instrStart : Nat) (instrEnd : Int) (instr : Buf) (j : Nat)
  | argsCheck (instrStart instrEnd : Nat) (instr : Buf) (k : Nat) (escaped : Bool)
deriving DecidableEq, Repr

/-- Append a comment to the accumulator. -/
def pushComment (acc : ScanAcc) (r : Rng) : ScanAcc :=
  { acc with comments := acc.comments ++ [r] }

/-- Append an instruction to the accumulator (the counterpart of
`dockerfile.addInstruction(Parser.createInstruction(...))`). -/
def pushInstruction (acc : ScanAcc) (t : InstructionT) : ScanAcc :=
  { acc with instructions := acc.instructions ++ [t] }

/-- One fuel-indexed interpreter for the labelled loops of `Parser.parse`
(parser.ts lines 189-375); each constructor of `ScanMode` names the source
label whose state it carries, and every transition transcribes one switch
case of the source. -/
def scanStep (b : Buf) (esc : Char) : Nat → ScanMode → ScanAcc → ScanAcc
  | 0, _, acc => acc
  | fuel + 1, .lineCheck i, acc =>
    match charAt b i with
    | none => acc
    | some c =>
      if c = ' ' ∨ c = '\t' ∨ c = '\r' ∨ c = '\n' then
        scanStep b esc fuel (.lineCheck (i + 1)) acc
      else if c = '#' then
        scanStep b esc fuel (.commentCk i (i + 1)) acc
      else
        scanStep b esc fuel (.instrCheck i (-1) [c] (i + 1)) acc
  | fuel + 1, .commentCk cs j, acc =>
    match charAt b j with
    | none => pushComment acc (mkRng b cs b.length)
    | some c =>
      if c = '\r' then
        scanStep b esc fuel (.lineCheck (j + 2)) (pushComment acc (mkRng b cs j))
      else if c = '\n' then
        scanStep b esc fuel (.lineCheck (j + 1)) (pushComment acc (mkRng b cs j))
      else
        scanStep b esc fuel (.commentCk cs (j + 1)) acc
  | fuel + 1, .instrCheck instrStart instrEnd instr j, acc =>
    match charAt b j with
    | none =>
      let e := if instrEnd = -1 then b.length else instrEnd.toNat
      pushInstruction acc ⟨instr, mkRng b instrStart e, mkRng b instrStart e⟩
    | some c =>
      if c = esc then
        match charAt b (j + 1) with
        | some '\r' => scanStep b esc fuel (.instrCheck instrStart instrEnd instr (j + 3)) acc
        | some '\n' => scanStep b esc fuel (.instrCheck instrStart instrEnd instr (j + 2)) acc
        | some ' ' | some '\t' =>
          match kwEscScan b (b.length + 1) (j + 2) with
          | .cont jNew => scanStep b esc fuel (.instrCheck instrStart instrEnd instr (jNew + 1)) acc
          | .keep kPos =>
            scanStep b esc fuel (.instrCheck instrStart (j + 1) (instr ++ [esc]) (kPos - 1)) acc
          | .eof =>
            pushInstruction acc ⟨instr ++ [esc], mkRng b instrStart (j + 1), mkRng b instrStart (j + 1)⟩
        | _ => scanStep b esc fuel (.instrCheck instrStart (j + 1) (instr ++ [esc]) (j + 1)) acc
      else if c = ' ' ∨ c = '\t' then
        let e := if instrEnd = -1 then j else instrEnd.toNat
        scanStep b esc fuel (.argsCheck instrStart e instr (j + 1) false) acc
      else if c = '\r' then
        let e := if instrEnd = -1 then j else instrEnd.toNat
        scanStep b esc fuel (.lineCheck (j + 2))
          (pushInstruction acc ⟨instr, mkRng b instrStart e, mkRng b instrStart e⟩)
      else if c = '\n' then
        let e := if instrEnd = -1 then j else instrEnd.toNat
        scanStep b esc fuel (.lineCheck (j + 1))
          (pushInstruction acc ⟨instr, mkRng b instrStart e, mkRng b instrStart e⟩)
      else
        scanStep b esc fuel (.instrCheck instrStart (j + 1) (instr ++ [c]) (j + 1)) acc
  | fuel + 1, .argsCheck instrStart instrEnd instr k escaped, acc =>
    match charAt b k with
    | none =>
      pushInstruction acc ⟨instr, mkRng b instrStart b.length, mkRng b instrStart instrEnd⟩
    | some c =>
      if c = '\r' ∨ c = '\n' then
        if escaped then scanStep b esc fuel (.argsCheck instrStart instrEnd instr (k + 1) escaped) acc
        else
          scanStep b esc fuel (.lineCheck (k + 1))
            (pushInstruction acc ⟨instr, mkRng b instrStart k, mkRng b instrStart instrEnd⟩)
      else if c = esc then
        match charAt b (k + 1) with
        | some '\n' => scanStep b esc fuel (.argsCheck instrStart instrEnd instr (k + 2) true) acc
        | some '\r' => scanStep b esc fuel (.argsCheck instrStart instrEnd instr (k + 3) true) acc
        | some ' ' | some '\t' =>
          match argEscScan b (b.length + 1) (k + 2) with
          | .res kNew true => scanStep b esc fuel (.argsCheck instrStart instrEnd instr (kNew + 1) true) acc
          | .res kNew false => scanStep b esc fuel (.argsCheck instrStart instrEnd instr (kNew + 1) escaped) acc
          | .off => scanStep b esc fuel (.argsCheck instrStart instrEnd instr (k + 1) escaped) acc
        | _ => scanStep b esc fuel (.argsCheck instrStart instrEnd instr (k + 1) escaped) acc
      else if c = '#' then
        if escaped then
          match argCommentScan b k (b.length + 1) (k + 1) with
          | .res kNew r => scanStep b esc fuel (.argsCheck instrStart instrEnd instr (kNew + 1) escaped) (pushComment acc r)
          | .eofComment r =>
            pushInstruction (pushComment acc r)
              ⟨instr, mkRng b instrStart b.length, mkRng b instrStart instrEnd⟩
        else scanStep b esc fuel (.argsCheck instrStart instrEnd instr (k + 1) escaped) acc
      else if c = ' ' ∨ c = '\t' then
        scanStep b esc fuel (.argsCheck instrStart instrEnd instr (k + 1) escaped) acc
      else
        scanStep b esc fuel (.argsCheck instrStart instrEnd instr (k + 1) false) acc

/-- Modelled from the spec: `ParserDirective.getDirective`
(parserDirective.ts is not in src/).  The only recognized directive kind is
`escape`, matched case-insensitively (the `# Escape=\x60` test fixes the
case-insensitivity and the name string keeps its original casing). -/
inductive DirKind
  | escape
deriving DecidableEq, Repr

/-- Lower-case a buffer character-wise, as `toLowerCase` does on ASCII. -/
def toLowerBuf (s : Buf) : Buf := s.map Char.toLower

/-- Upper-case a buffer character-wise, as `toUpperCase` does on ASCII. -/
def toUpperBuf (s : Buf) : Buf := s.map Char.toUpper

/-- Modelled from the spec: the directive kind resolved from a directive's
name (parserDirective.ts is not in src/): `escape` when the name
case-insensitively equals "escape", otherwise unresolved. -/
def directiveKind (name : Buf) : Option DirKind :=
  if toLowerBuf name = "escape".toList then some .escape else none

/-- Mirrors the escape-character selection of `Parser.parse` (parser.ts
lines 172-181): the value of an `escape` directive becomes the escape
character exactly when it is a one-character backtick or backslash. -/
def computeEscape (b : Buf) (nameRange valueRange : Rng) : Char :=
  if directiveKind (rangeText b nameRange) = some .escape then
    let v := rangeText b valueRange
    if v = ['`'] then '`' else if v = ['\\'] then '\\' else '\\'
  else '\\'

/-- The parsed document: leading directive (ranges), comments, instructions
and the escape character in effect, as `Parser.parse` assembles them. -/
structure DockerfileT where
  directive : Option (Rng × Rng × Rng)
  comments : List Rng
  instructions : List InstructionT
  escapeChar : Char
deriving DecidableEq, Repr

/-- Mirrors `Parser.parse` (parser.ts lines 167-380): handle the leading
directive or comment, then run the main scanning loop from the offset after
it.  (`organizeComments` lives in dockerfile.ts, which is not in src/; it
only repartitions the comment list and is not modelled.) -/
def parse (b : Buf) : DockerfileT :=
  match getDirectiveSymbol b with
  | some (.dir lr nr vr) =>
    let esc := computeEscape b nr vr
    let acc := scanStep b esc (b.length + 2) (.lineCheck (offsetAt b lr.rend)) ⟨[], []⟩
    ⟨some (lr, nr, vr), acc.comments, acc.instructions, esc⟩
  | some (.comm r) =>
    let acc := scanStep b '\\' (b.length + 2) (.lineCheck (offsetAt b ⟨1, 0⟩)) ⟨[r], []⟩
    ⟨none, acc.comments, acc.instructions, '\\'⟩
  | none =>
    let acc := scanStep b '\\' (b.length + 2) (.lineCheck 0) ⟨[], []⟩
    ⟨none, acc.comments, acc.instructions, '\\'⟩

/-! ## Argument splitting (instruction.ts, `Instruction.getArguments`) -/

/-- An argument token: the unescaped text and the raw source range. -/
structure ArgumentT where
  value : Buf
  range : Rng
deriving DecidableEq, Repr

/-- Range between two indices relative to the instruction's argument
offset, mirroring
`Range.create(this.document.positionAt(offset + s), this.document.positionAt(offset + e))`. -/
def mkArgRng (b : Buf) (offset : Nat) (s e : Int) : Rng :=
  ⟨positionAt b (offset + s).toNat, positionAt b (offset + e).toNat⟩

/-- Outcome of the `whitespaceCheck` loop of `getArguments` (instruction.ts
lines 224-247): a line break was found (resume after it), a non-whitespace
character was found, or the buffer ended inside the whitespace run. -/
inductive ArgWsRes
  | nl (jNew : Nat)
  | other (jNew : Nat)
  | off
deriving DecidableEq, Repr

/-- Mirrors the `whitespaceCheck` loop of `getArguments` (instruction.ts
lines 224-247), scanning the whitespace after an escape character. -/
def argWsScan (fa : Buf) : Nat → Nat → ArgWsRes
  | 0, _ => .off
  | fuel + 1, j =>
    match charAt fa j with
    | none => .off
    | some c =>
      if c = ' ' ∨ c = '\t' then argWsScan fa fuel (j + 1)
      else if c = '\r' then .nl (j + 1)
      else if c = '\n' then .nl j
      else .other j

/-- The mutable locals of the `getArguments` loop (instruction.ts lines
186-195), with the `-1` sentinels kept as `Int`. -/
structure ArgsState where
  found : Int
  escapeMarker : Int
  escapedArg : Buf
  ewd : Bool
  escaping : Bool
  start : Bool
  comment : Bool
  args : List ArgumentT
deriving DecidableEq, Repr

/-- The pushes at instruction.ts lines 213-215, 264, 286 and 303-305: emit
the accumulated argument text over the range `[found, e)`. -/
def pushArgAt (b : Buf) (offset : Nat) (s : ArgsState) (e : Int) : List ArgumentT :=
  s.args ++ [⟨s.escapedArg, mkArgRng b offset s.found e⟩]

/-- The end-of-buffer emission of `getArguments` (instruction.ts lines
301-307). -/
def finalizeArgs (b : Buf) (offset : Nat) (fa : Buf) (s : ArgsState) : List ArgumentT :=
  if s.found ≠ -1 then
    pushArgAt b offset s (if s.escapeMarker = -1 then (fa.length : Int) else s.escapeMarker)
  else s.args

/-- Mirrors the main loop of `Instruction.getArguments` (instruction.ts
lines 196-299), one branch per switch case of the source. -/
def argLoop (b : Buf) (offset : Nat) (esc : Char) (fa : Buf) :
    Nat → Nat → ArgsState → List ArgumentT
  | 0, _, s => finalizeArgs b offset fa s
  | fuel + 1, i, s =>
    match charAt fa i with
    | none => finalizeArgs b offset fa s
    | some c =>
      if isWhitespace c then
        if s.escaping then
          argLoop b offset esc fa fuel (i + 1)
            { s with ewd := !(isNewline c),
                     comment := if isNewline c then false else s.comment }
        else if s.found ≠ -1 then
          argLoop b offset esc fa fuel (i + 1)
            { s with args := pushArgAt b offset s
                       (if s.escapeMarker = -1 then (i : Int) else s.escapeMarker),
                     escapeMarker := -1, escapedArg := [], found := -1 }
        else argLoop b offset esc fa fuel (i + 1) s
      else if c = esc then
        match charAt fa (i + 1) with
        | some ' ' | some '\t' =>
          match argWsScan fa (fa.length + 1) (i + 2) with
          | .nl jNew =>
            argLoop b offset esc fa fuel (jNew + 1)
              { s with escaping := true, start := true,
                       escapeMarker := if s.found ≠ -1 then (i : Int) else s.escapeMarker }
          | .other jNew =>
            argLoop b offset esc fa fuel ((if s.found = -1 then jNew - 1 else i) + 1)
              { s with escapeMarker := (i : Int) }
          | .off => argLoop b offset esc fa fuel (i + 1) s
        | some '\r' =>
          argLoop b offset esc fa fuel (i + 3)
            { s with escaping := true, start := true,
                     escapeMarker := if s.found ≠ -1 then (i : Int) else s.escapeMarker }
        | some '\n' =>
          argLoop b offset esc fa fuel (i + 2)
            { s with escaping := true, start := true,
                     escapeMarker := if s.found ≠ -1 then (i : Int) else s.escapeMarker }
        | next =>
          let s1 := if s.ewd ∧ s.escapeMarker ≠ -1 then
              { s with args := pushArgAt b offset s s.escapeMarker, escapedArg := [], found := -1 }
            else s
          argLoop b offset esc fa fuel (i + 2)
            { s1 with ewd := false, escaping := false,
                      escapedArg := s1.escapedArg ++
                        (if next = some '$' then [esc, '$'] else next.elim [] ([·])),
                      found := if s1.found = -1 then (i : Int) else s1.found }
      else if !s.comment then
        if s.start ∧ c = '#' then
          argLoop b offset esc fa fuel (i + 1) { s with start := false, comment := true }
        else
          let s1 := if s.ewd ∧ s.escapeMarker ≠ -1 then
              { s with args := pushArgAt b offset s s.escapeMarker, escapedArg := [], found := -1 }
            else s
          argLoop b offset esc fa fuel (i + 1)
            { s1 with ewd := false, escaping := false, escapeMarker := -1,
                      escapedArg := s1.escapedArg ++ [c],
                      found := if s1.found = -1 then (i : Int) else s1.found }
      else argLoop b offset esc fa fuel (i + 1) s

/-- The keyword-length prefix that `getArguments` strips from the line's
text (instruction.ts line 182). -/
def extraOf (b : Buf) (t : InstructionT) : Nat :=
  offsetAt b t.instructionRange.rend - offsetAt b t.instructionRange.rstart

/-- Modelled from the spec: `Line.getTextContent` (line.ts is not in src/)
returns the text covered by the line's full range. -/
def getTextContent (b : Buf) (t : InstructionT) : Buf := rangeText b t.lineRange

/-- Mirrors `Instruction.getArguments` (instruction.ts lines 179-310). -/
def getArguments (b : Buf) (esc : Char) (t : InstructionT) : List ArgumentT :=
  let extra := extraOf b t
  let fa := (getTextContent b t).drop extra
  let offset := offsetAt b t.instructionRange.rstart + extra
  argLoop b offset esc fa (fa.length + 1) 0 ⟨-1, -1, [], false, false, false, false, []⟩

/-! ## Declaration extraction (property.ts, `Property`) -/

/-- Mirrors TypeScript's `charAt` with a possibly negative index (used for
`value.charAt(index - 1)` in `Property.getNameRange`). -/
def charAtI (v : Buf) (i : Int) : Option Char := if i < 0 then none else charAt v i.toNat

/-- Mirrors `value.indexOf(c)`: first occurrence or `-1`. -/
def indexOfC (v : Buf) (c : Char) : Int :=
  match v.findIdx? (· = c) with
  | some i => (i : Int)
  | none => -1

/-- Mirrors TypeScript's `substring`, which clamps negative bounds to zero
and swaps the bounds when they are out of order. -/
def substringTS (v : Buf) (a b : Int) : Buf :=
  if a ≤ b then textAt v a.toNat b.toNat else textAt v b.toNat a.toNat

/-- Mirrors `Property.getNameRange` (property.ts lines 140-157): split the
argument at the first `=` unless the argument opens with a quote that is
not closed immediately before the `=`. -/
def propGetNameRange (b : Buf) (arg : ArgumentT) : Rng :=
  let value := arg.value
  let index := indexOfC value '='
  if index ≠ -1 then
    let initial := charAtI value 0
    let before := charAtI value (index - 1)
    if (initial = some '"' ∧ before = some '"') ∨
       (initial = some '\'' ∧ before = some '\'') ∨
       (initial ≠ some '"' ∧ initial ≠ some '\'') then
      ⟨arg.range.rstart, positionAt b (offsetAt b arg.range.rstart + index.toNat)⟩
    else arg.range
  else arg.range

/-- Mirrors `Property.getValueRange` (property.ts lines 159-164). -/
def propGetValueRange (b : Buf) (arg : ArgumentT) : Rng :=
  ⟨positionAt b (offsetAt b arg.range.rstart + (indexOfC arg.value '=' + 1).toNat),
   positionAt b (offsetAt b arg.range.rend)⟩

/-- Modelled from the spec: `Util.findLeadingNonWhitespace` (util.ts is not
in src/): the index of the first character that is neither horizontal
whitespace nor part of an escape-char line-break elision; the length of the
buffer when there is none. -/
def findLeadingNonWhitespaceAux (v : Buf) (esc : Char) : Nat → Nat → Nat
  | 0, _ => v.length
  | fuel + 1, i =>
    match charAt v i with
    | none => v.length
    | some c =>
      if c = ' ' ∨ c = '\t' then findLeadingNonWhitespaceAux v esc fuel (i + 1)
      else if c = esc then
        match (v.drop (i + 1)).dropWhile (fun d => d = ' ' ∨ d = '\t') with
        | '\r' :: '\n' :: _ =>
          findLeadingNonWhitespaceAux v esc fuel
            (v.length - ((v.drop (i + 1)).dropWhile (fun d => d = ' ' ∨ d = '\t')).length + 2)
        | '\r' :: _ =>
          findLeadingNonWhitespaceAux v esc fuel
            (v.length - ((v.drop (i + 1)).dropWhile (fun d => d = ' ' ∨ d = '\t')).length + 1)
        | '\n' :: _ =>
          findLeadingNonWhitespaceAux v esc fuel
            (v.length - ((v.drop (i + 1)).dropWhile (fun d => d = ' ' ∨ d = '\t')).length + 1)
        | _ => i
      else i

/-- Modelled from the spec: `Util.findLeadingNonWhitespace` entry point. -/
def findLeadingNonWhitespace (v : Buf) (esc : Char) : Nat :=
  findLeadingNonWhitespaceAux v esc (v.length + 1) 0

/-- Mirrors the quote-pair detection loop of `Property.getValue`
(property.ts lines 191-198). -/
def inDoubleScan (v : Buf) (esc : Char) : Nat → Nat → Bool → Bool
  | 0, _, acc => acc
  | fuel + 1, i, acc =>
    match charAt v i with
    | none => acc
    | some c =>
      if c = esc then inDoubleScan v esc fuel (i + 2) acc
      else if c = '"' ∧ (i : Int) = (v.length : Int) - 1 then inDoubleScan v esc fuel (i + 1) true
      else inDoubleScan v esc fuel (i + 1) acc

/-- Outcome of the `whitespaceCheck` loop of `Property.getValue`
(property.ts lines 217-245). -/
inductive PvWsRes
  | contNl (iNew : Nat)
  | contOther (app : Buf) (iNew : Nat)
  | fall
deriving DecidableEq, Repr

/-- Mirrors the `whitespaceCheck` loop of `Property.getValue` (property.ts
lines 217-245); `ch2` is the whitespace character right after the escape
character at `i`. -/
def pvWsScan (v : Buf) (esc : Char) (quoted : Bool) (i : Nat) (ch2 : Char) :
    Nat → Nat → PvWsRes
  | 0, _ => .fall
  | fuel + 1, j =>
    match charAt v j with
    | none => .fall
    | some c =>
      if c = ' ' ∨ c = '\t' then pvWsScan v esc quoted i ch2 fuel (j + 1)
      else if c = '\r' then .contNl (j + 1)
      else if c = '\n' then .contNl j
      else if !quoted then
        if c = esc then .contOther [ch2] (i + 1)
        else .contOther [ch2, c] j
      else .fall

/-- The `newlineCheck` loop of `Property.getValue` (property.ts lines
315-323) as the index it leaves `i` at: the first line break after the
`#` at `i` (one further for a carriage return), or `i` unchanged when no
line break remains. -/
def pvCommentNewIdx (v : Buf) (i : Nat) : Nat :=
  match (v.drop (i + 1)).findIdx? (fun c => c = '\r' ∨ c = '\n') with
  | some d => if charAt v (i + 1 + d) = some '\r' then i + 1 + d + 1 else i + 1 + d
  | none => i

/-- The tail of the escape case of `Property.getValue` (property.ts lines
247-288), reached either directly or by falling out of `whitespaceCheck`:
returns what is appended, the next loop index, and the new escaped flag. -/
def pvEscRest (esc : Char) (inDouble inSingle literal : Bool) (i : Nat) (ch2 : Char)
    (escaped : Bool) : Buf × Nat × Bool :=
  if inDouble then
    if ch2 = '\r' then ([], i + 3, true)
    else if ch2 = '\n' then ([], i + 2, true)
    else if ch2 ≠ '"' then
      if ch2 = esc then ([esc], i + 2, escaped) else ([esc], i + 1, escaped)
    else ([], i + 1, escaped)
  else if inSingle ∨ literal then
    if ch2 = '\r' then ([], i + 3, true)
    else if ch2 = '\n' then ([], i + 2, true)
    else ([esc], i + 1, escaped)
  else if ch2 = esc then ([esc], i + 2, escaped)
  else if ch2 = '\r' then ([], i + 3, true)
  else if ch2 = '\n' then ([], i + 2, true)
  else ([ch2], i + 2, escaped)

/-- Mirrors the `parseValue` loop of `Property.getValue` (property.ts lines
206-334); the state is `(escaped, commentCheck, escapedValue)` and the
quote mode is fixed on entry. -/
def pvLoop (v : Buf) (esc : Char) (inDouble inSingle literal : Bool) :
    Nat → Nat → Bool → Int → Buf → Buf
  | 0, _, _, _, ev => ev
  | fuel + 1, i, escaped, commentCheck, ev =>
    match charAt v i with
    | none => ev
    | some c =>
      if c = esc then
        match charAt v (i + 1) with
        | none => ev ++ [esc]
        | some ch2 =>
          if ch2 = ' ' ∨ ch2 = '\t' then
            match pvWsScan v esc (inDouble ∨ inSingle ∨ literal) i ch2 (v.length + 1) (i + 2) with
            | .contNl iNew => pvLoop v esc inDouble inSingle literal fuel (iNew + 1) true commentCheck ev
            | .contOther app iNew => pvLoop v esc inDouble inSingle literal fuel (iNew + 1) escaped commentCheck (ev ++ app)
            | .fall =>
              let r := pvEscRest esc inDouble inSingle literal i ch2 escaped
              pvLoop v esc inDouble inSingle literal fuel r.2.1 r.2.2 commentCheck (ev ++ r.1)
          else
            let r := pvEscRest esc inDouble inSingle literal i ch2 escaped
            pvLoop v esc inDouble inSingle literal fuel r.2.1 r.2.2 commentCheck (ev ++ r.1)
      else if c = ' ' ∨ c = '\t' then
        pvLoop v esc inDouble inSingle literal fuel (i + 1) escaped
          (if escaped ∧ commentCheck = -1 then (i : Int) else commentCheck) (ev ++ [c])
      else if c = '\r' ∨ c = '\n' then
        let i2 := if c = '\r' then i + 1 else i
        if escaped ∧ commentCheck ≠ -1 then
          pvLoop v esc inDouble inSingle literal fuel (i2 + 1) escaped (-1)
            (substringTS ev 0 ((ev.length : Int) - ((i2 : Int) - commentCheck - 1)))
        else pvLoop v esc inDouble inSingle literal fuel (i2 + 1) escaped commentCheck ev
      else if c = '#' ∧ escaped then
        let ev1 := if commentCheck ≠ -1 then
            substringTS ev 0 ((ev.length : Int) - ((i : Int) - commentCheck)) else ev
        pvLoop v esc inDouble inSingle literal fuel (pvCommentNewIdx v i + 1) escaped (-1) ev1
      else
        pvLoop v esc inDouble inSingle literal fuel (i + 1) false
          (if escaped then -1 else commentCheck) (ev ++ [c])

/-- Mirrors `Property.getValue` (property.ts lines 177-337): strip a
matched quote pair, then unescape with continuation and embedded-comment
handling. -/
def propGetValue (raw : Buf) (esc : Char) : Buf :=
  let skip := findLeadingNonWhitespace raw esc
  let escaped0 := skip ≠ 0 ∧ charAt raw skip = some '#'
  let v0 := raw.drop skip
  let first := charAtI v0 0
  let last := charAtI v0 ((v0.length : Int) - 1)
  let literal := first = some '\'' ∨ first = some '"'
  let inSingle := first = some '\'' ∧ last = some '\''
  let inDouble := first = some '"' ∧ inDoubleScan v0 esc (v0.length + 1) 1 false
  let v := if inSingle ∨ inDouble then substringTS v0 1 ((v0.length : Int) - 1) else v0
  pvLoop v esc inDouble inSingle literal (v.length + 1) 0 escaped0 (-1) []

/-- A declared name/value pair as `Property` records it. -/
structure PropertyT where
  nameRange : Rng
  name : Buf
  valueRange : Option Rng
  value : Option Buf
  range : Rng
deriving DecidableEq, Repr

/-- Mirrors the `Property` constructor (property.ts lines 20-45). -/
def mkProperty (b : Buf) (esc : Char) (arg : ArgumentT) (arg2 : Option ArgumentT) : PropertyT :=
  let nameRange := propGetNameRange b arg
  let name := propGetValue (rangeText b nameRange) esc
  match arg2 with
  | some a2 =>
    ⟨nameRange, name, some a2.range, some (propGetValue (rangeText b a2.range) esc),
     ⟨nameRange.rstart, a2.range.rend⟩⟩
  | none =>
    if nameRange = arg.range then ⟨nameRange, name, none, none, arg.range⟩
    else
      let vr := propGetValueRange b arg
      ⟨nameRange, name, some vr, some (propGetValue (rangeText b vr) esc), arg.range⟩

/-! ## Variable references (instruction.ts, `Instruction.parseVariables`) -/

/-- A variable reference as the `Variable` constructor records it; the
`defined` and `buildVariable` fields are what the instruction passes from
the document's resolver. -/
structure VariableT where
  name : Buf
  nameRange : Rng
  range : Rng
  modifier : Option Buf
  modifierRange : Option Rng
  substitutionParameter : Option Buf
  substitutionRange : Option Rng
  defined : Bool
  buildVariable : Option Bool
  stringValue : Buf
deriving DecidableEq, Repr

/-- The escape-character scan inside the variable name loops
(instruction.ts lines 391-404 and 521-534): the index of the first `\n`
after `j`, every other character being stepped over. -/
def firstNlAfter (arg : Buf) (j : Nat) : Option Nat :=
  match (arg.drop (j + 1)).findIdx? (· = '\n') with
  | some d => some (j + 1 + d)
  | none => none

/-- Whether a character matches the `/^[a-z0-9_]+$/i` test of
instruction.ts line 551. -/
def isNameChar (c : Char) : Bool :=
  ('a' ≤ c ∧ c ≤ 'z') ∨ ('A' ≤ c ∧ c ≤ 'Z') ∨ ('0' ≤ c ∧ c ≤ '9') ∨ c = '_'

/-- Outcome of the braced `nameLoop` (instruction.ts lines 388-487). -/
inductive BracedRes
  | stop
  | emitCont (v : VariableT) (iNext : Nat)
deriving DecidableEq, Repr

/-- The mutable locals of the braced `nameLoop` (instruction.ts lines
381-387), `-1` sentinels kept as `Int`. -/
structure BracedState where
  escapedString : Buf
  escapedName : Buf
  nameEnd : Int
  escapedSubst : Buf
  substStart : Int
  substEnd : Int
  modifierRead : Int
deriving DecidableEq, Repr

/-- The `Variable` built at the closing `}` (instruction.ts lines 406-447). -/
def mkBracedVariable (b : Buf) (offset : Nat) (defd : Buf → Nat → Bool)
    (build : Buf → Nat → Option Bool) (arg : Buf) (i j : Nat) (st : BracedState) : VariableT :=
  let escapedString := st.escapedString ++ ['}']
  let substitutionParameter := if st.modifierRead ≠ -1 then some st.escapedSubst else none
  let res :=
    if st.nameEnd = -1 then ((j : Int), (none : Option Buf), (none : Option Rng), (none : Option Rng))
    else if st.nameEnd + 1 = (j : Int) then
      (st.nameEnd, some ([] : Buf),
       some (mkArgRng b offset (st.nameEnd + 1) (st.nameEnd + 1)), (none : Option Rng))
    else
      let ss := if st.substStart = -1 then st.modifierRead + 1 else st.substStart
      let se := if st.substStart = -1 then st.modifierRead + 1 else st.substEnd + 1
      (st.nameEnd, some (substringTS arg st.modifierRead (st.modifierRead + 1)),
       some (mkArgRng b offset st.modifierRead (st.modifierRead + 1)),
       some (mkArgRng b offset ss se))
  let start := positionAt b (offset + i)
  ⟨st.escapedName, mkArgRng b offset ((i : Int) + 2) res.1,
   ⟨start, positionAt b (offset + j + 1)⟩,
   res.2.1, res.2.2.1, substitutionParameter, res.2.2.2,
   defd st.escapedName start.line, build st.escapedName start.line, escapedString⟩

/-- Mirrors the braced `nameLoop` of `parseVariables` (instruction.ts lines
388-487), started just after `${`. -/
def bracedLoop (b : Buf) (offset : Nat) (defd : Buf → Nat → Bool)
    (build : Buf → Nat → Option Bool) (arg : Buf) (esc : Char) (i : Nat) :
    Nat → Nat → BracedState → BracedRes
  | 0, _, _ => .stop
  | fuel + 1, j, st =>
    match charAt arg j with
    | none => .stop
    | some c =>
      if c = esc then
        match firstNlAfter arg j with
        | some k => bracedLoop b offset defd build arg esc i fuel (k + 1) st
        | none => bracedLoop b offset defd build arg esc i fuel (j + 1) st
      else if c = '}' then
        .emitCont (mkBracedVariable b offset defd build arg i j st) (j + 1)
      else if c = ':' then
        if st.nameEnd = -1 then
          bracedLoop b offset defd build arg esc i fuel (j + 1)
            { st with nameEnd := (j : Int), escapedString := st.escapedString ++ [':'] }
        else if st.modifierRead ≠ -1 then
          bracedLoop b offset defd build arg esc i fuel (j + 1)
            { st with
              substStart := if st.substStart = -1 then (j : Int) else st.substStart,
              substEnd := (j : Int),
              escapedSubst := st.escapedSubst ++ [':'],
              escapedString := st.escapedString ++ [':'] }
        else
          bracedLoop b offset defd build arg esc i fuel (j + 1)
            { st with modifierRead := (j : Int), escapedString := st.escapedString ++ [':'] }
      else if c = '\n' ∨ c = '\r' ∨ c = ' ' ∨ c = '\t' then
        bracedLoop b offset defd build arg esc i fuel (j + 1) st
      else
        if st.nameEnd = -1 then
          bracedLoop b offset defd build arg esc i fuel (j + 1)
            { st with escapedName := st.escapedName ++ [c], escapedString := st.escapedString ++ [c] }
        else if st.modifierRead ≠ -1 then
          bracedLoop b offset defd build arg esc i fuel (j + 1)
            { st with
              substStart := if st.substStart = -1 then (j : Int) else st.substStart,
              substEnd := (j : Int),
              escapedSubst := st.escapedSubst ++ [c],
              escapedString := st.escapedString ++ [c] }
        else
          bracedLoop b offset defd build arg esc i fuel (j + 1)
            { st with modifierRead := (j : Int), escapedString := st.escapedString ++ [c] }

/-- Outcome of the simple-name `nameLoop` (instruction.ts lines 495-584):
emit a variable and continue the outer loop, or emit and end the whole
scan. -/
inductive SimpleRes
  | emitCont (v : VariableT) (iNext : Nat)
  | emitStop (v : VariableT)
deriving DecidableEq, Repr

/-- The `Variable` built for an unbraced `$NAME` reference ending at `e`
(instruction.ts lines 506-518, 536-548 and 570-582). -/
def mkSimpleVariable (b : Buf) (offset : Nat) (defd : Buf → Nat → Bool)
    (build : Buf → Nat → Option Bool) (i e : Nat) (escapedName : Buf) : VariableT :=
  let start := positionAt b (offset + i)
  ⟨escapedName, mkArgRng b offset ((i : Int) + 1) (e : Int),
   ⟨start, positionAt b (offset + e)⟩, none, none, none, none,
   defd escapedName start.line, build escapedName start.line, '$' :: escapedName⟩

/-- Mirrors the simple-name `nameLoop` of `parseVariables` (instruction.ts
lines 495-569). -/
def simpleLoop (b : Buf) (offset : Nat) (defd : Buf → Nat → Bool)
    (build : Buf → Nat → Option Bool) (arg : Buf) (esc : Char) (i : Nat) :
    Nat → Nat → Buf → SimpleRes
  | 0, _, nm => .emitStop (mkSimpleVariable b offset defd build i arg.length nm)
  | fuel + 1, j, nm =>
    match charAt arg j with
    | none => .emitStop (mkSimpleVariable b offset defd build i arg.length nm)
    | some c =>
      if c = '\r' ∨ c = '\n' ∨ c = ' ' ∨ c = '\t' then
        simpleLoop b offset defd build arg esc i fuel (j + 1) nm
      else if c = '$' ∨ c = '\'' ∨ c = '"' then
        .emitCont (mkSimpleVariable b offset defd build i j nm) j
      else if c = esc then
        match firstNlAfter arg j with
        | some k => simpleLoop b offset defd build arg esc i fuel (k + 1) nm
        | none => .emitStop (mkSimpleVariable b offset defd build i j nm)
      else if !(isNameChar c) then
        .emitCont (mkSimpleVariable b offset defd build i j nm) j
      else
        simpleLoop b offset defd build arg esc i fuel (j + 1) (nm ++ [c])

/-- Mirrors the outer `variableLoop` of `Instruction.parseVariables`
(instruction.ts lines 370-588); `offset` is the document offset of the
argument text `arg`. -/
def varLoop (b : Buf) (offset : Nat) (defd : Buf → Nat → Bool)
    (build : Buf → Nat → Option Bool) (arg : Buf) (esc : Char) :
    Nat → Nat → List VariableT → List VariableT
  | 0, _, vars => vars
  | fuel + 1, i, vars =>
    match charAt arg i with
    | none => vars
    | some c =>
      if c = esc then
        if charAt arg (i + 1) = some '$' then varLoop b offset defd build arg esc fuel (i + 2) vars
        else varLoop b offset defd build arg esc fuel (i + 1) vars
      else if c = '$' then
        if charAt arg (i + 1) = some '{' then
          match bracedLoop b offset defd build arg esc i (arg.length + 1) (i + 2)
              ⟨['$', '{'], [], -1, [], -1, -1, -1⟩ with
          | .stop => vars
          | .emitCont v iNext => varLoop b offset defd build arg esc fuel iNext (vars ++ [v])
        else if ((charAt arg (i + 1)).elim false isWhitespace) ∨ i + 1 = arg.length then
          varLoop b offset defd build arg esc fuel (i + 1) vars
        else
          match simpleLoop b offset defd build arg esc i (arg.length + 1) (i + 1) [] with
          | .emitCont v iNext => varLoop b offset defd build arg esc fuel iNext (vars ++ [v])
          | .emitStop v => vars ++ [v]
      else varLoop b offset defd build arg esc fuel (i + 1) vars

/-- Mirrors `Instruction.parseVariables` (instruction.ts lines 370-588),
with the document's resolver passed as the two capability functions the
instruction consults. -/
def parseVariables (b : Buf) (offset : Nat) (defd : Buf → Nat → Bool)
    (build : Buf → Nat → Option Bool) (arg : Buf) (esc : Char) : List VariableT :=
  varLoop b offset defd build arg esc (arg.length + 1) 0 []

/-! ## Document model and resolver

dockerfile.ts, imageTemplate.ts, line.ts and the per-keyword instruction
files are not in src/, so the document-level resolver is modelled from the
specification (§4.4 of the spec, the accessor contracts of main.ts, and the
worked examples of §8 which the spec declares authoritative). -/

/-- The FROM keyword text. -/
def kwFROM : Buf := "FROM".toList

/-- The ARG keyword text. -/
def kwARG : Buf := "ARG".toList

/-- The ENV keyword text. -/
def kwENV : Buf := "ENV".toList

/-- A declared name and optional value, as a `Property` provides them. -/
structure DeclProp where
  name : Buf
  value : Option Buf
deriving DecidableEq, Repr

/-- The two declaration-bearing instruction kinds. -/
inductive DeclKind
  | argK
  | envK
deriving DecidableEq, Repr

/-- An instruction as the resolver sees it: upper-cased keyword, start
line, and the declarations it carries. -/
structure InstrM where
  keyword : Buf
  line : Nat
  props : List DeclProp
deriving DecidableEq, Repr

/-- The resolver's view of a parsed document: its instructions in source
order and the number of lines of the buffer. -/
structure DocM where
  instrs : List InstrM
  lineCount : Nat
deriving DecidableEq, Repr

/-- Mirrors `Instruction.getKeyword` (instruction.ts lines 56-58). -/
def keywordOf (t : InstructionT) : Buf := toUpperBuf t.instruction

/-- Reduce a `PropertyT` to the name/value pair the resolver consults. -/
def toDecl (p : PropertyT) : DeclProp := ⟨p.name, p.value⟩

/-- Modelled from the spec: the declarations of an instruction, per the
`extractProperty` contract of §4.3 (arg.ts, env.ts and
propertyInstruction.ts are not in src/): an ARG takes a single
`NAME`/`NAME=VALUE` argument; an ENV is either the legacy two-token
`NAME VALUE` form (no `=` in the first argument) or a list of
`NAME=VALUE` arguments. -/
def propsOfInstruction (b : Buf) (esc : Char) (t : InstructionT) : List DeclProp :=
  let kw := keywordOf t
  let args := getArguments b esc t
  if kw = kwARG then
    match args with
    | [a] => [toDecl (mkProperty b esc a none)]
    | _ => []
  else if kw = kwENV then
    match args with
    | [a, a2] =>
      if indexOfC a.value '=' = -1 then [toDecl (mkProperty b esc a (some a2))]
      else [toDecl (mkProperty b esc a none), toDecl (mkProperty b esc a2 none)]
    | l => l.map (fun a => toDecl (mkProperty b esc a none))
  else []

/-- The resolver's view of a parsed buffer. -/
def docModelOf (b : Buf) : DocM :=
  let d := parse b
  ⟨d.instructions.map (fun t => ⟨keywordOf t, t.lineRange.rstart.line, propsOfInstruction b d.escapeChar t⟩),
   (lineOffsets b).length⟩

/-- Start line of the document's first stage-introducing instruction. -/
def firstFromLine (doc : DocM) : Option Nat :=
  (doc.instrs.find? (fun t => t.keyword = kwFROM)).map (·.line)

/-- Whether an instruction is one of the document's initial declarations:
an ARG occurring before the first FROM (spec §3, "initial (stage-0,
pre-first-stage-instruction) declarations"). -/
def isInitialInstr (doc : DocM) (t : InstrM) : Bool :=
  t.keyword = kwARG &&
    match firstFromLine doc with
    | none => true
    | some f => t.line < f

/-- Modelled from the spec: `Dockerfile.getInitialARGs` (dockerfile.ts is
not in src/). -/
def getInitialARGs (doc : DocM) : List InstrM := doc.instrs.filter (isInitialInstr doc)

/-- The last (nearest) initial-ARG declaration of a name. -/
def lastInitialMatch (doc : DocM) (name : Buf) : Option DeclProp :=
  (((getInitialARGs doc).flatMap (·.props)).filter (·.name = name)).getLast?

/-- Whether `line` is the start line of a FROM instruction. -/
def isFromLine (doc : DocM) (line : Nat) : Bool :=
  doc.instrs.any (fun t => t.keyword = kwFROM ∧ t.line = line)

/-- Start line of the FROM introducing the stage containing `line`: the
last FROM strictly before it (`none` inside the initial, pre-stage
region). -/
def stageFromLine (doc : DocM) (line : Nat) : Option Nat :=
  ((doc.instrs.filter (fun t => t.keyword = kwFROM ∧ t.line < line)).getLast?).map (·.line)

/-- The declaration kind of an instruction, if any. -/
def declKindOf (t : InstrM) : Option DeclKind :=
  if t.keyword = kwARG then some .argK else if t.keyword = kwENV then some .envK else none

/-- Whether a declaration-bearing instruction is visible from `line`: it
lies strictly before `line` and inside the same stage (strictly after the
stage's FROM, or anywhere in the initial region when `line` precedes every
FROM), per spec §4.4. -/
def visibleDecl (doc : DocM) (line : Nat) (t : InstrM) : Bool :=
  (declKindOf t).isSome && decide (t.line < line) &&
    match stageFromLine doc line with
    | some f => decide (f < t.line)
    | none => true

/-- The declarations of `name` visible from `line`, in source order. -/
def visibleMatches (doc : DocM) (name : Buf) (line : Nat) : List (DeclKind × DeclProp) :=
  (doc.instrs.filter (visibleDecl doc line)).flatMap
    (fun t => ((t.props.filter (·.name = name)).map (fun p => ((declKindOf t).getD .argK, p))))

/-- The nearest preceding visible declaration of `name`. -/
def nearestDecl (doc : DocM) (name : Buf) (line : Nat) : Option (DeclKind × DeclProp) :=
  (visibleMatches doc name line).getLast?

/-- Modelled from the spec: `Dockerfile.resolveVariable` (dockerfile.ts is
not in src/).  Per §4.4, the accessor contract in main.ts and the
authoritative worked examples of §8: a line the document does not contain
resolves to the undefined marker (`none`); on a FROM's own line only the
initial ARG declarations are visible; otherwise the nearest visible
declaration of the stage decides, a valueless ARG deferring to the last
initial ARG declaration of the same name (spec §8.4: `ARG v=1` before the
first FROM followed by a bare `ARG v` in a stage resolves to `"1"`). -/
def resolveVariable (doc : DocM) (name : Buf) (line : Nat) : Option (Option Buf) :=
  if doc.lineCount ≤ line then none
  else if isFromLine doc line then
    match lastInitialMatch doc name with
    | some p => some p.value
    | none => none
  else
    match nearestDecl doc name line with
    | none => none
    | some (k, p) =>
      match p.value with
      | some v => some (some v)
      | none =>
        match k with
        | .envK => some none
        | .argK =>
          match lastInitialMatch doc name with
          | some q => some q.value
          | none => some none

/-- The scope `getContainingImage` returns: the whole document or one of
its stages. -/
inductive ImageRef
  | wholeDoc
  | stage (idx : Nat)
deriving DecidableEq, Repr

/-- Whether a position lies within the document: its line exists and its
character does not exceed the line's content length. -/
def containsPos (b : Buf) (p : Pos) : Bool :=
  match (lineOffsets b).get? p.line with
  | none => false
  | some s => p.character ≤ ((b.drop s).takeWhile (fun c => c ≠ '\r' ∧ c ≠ '\n')).length

/-- Modelled from the spec: `Dockerfile.getContainingImage` (dockerfile.ts
is not in src/).  Per §4.4: the document itself when the position precedes
every FROM (or there is none), the stage whose region contains the
position's line otherwise, and `null` out of bounds (on the empty document
only column 0 of line 0 is in bounds). -/
def getContainingImage (b : Buf) (doc : DocM) (p : Pos) : Option ImageRef :=
  if ¬ containsPos b p then none
  else
    let froms := (doc.instrs.filter (fun t => t.keyword = kwFROM)).map (·.line)
    match (froms.filter (· ≤ p.line)).length with
    | 0 => some .wholeDoc
    | n + 1 => some (.stage n)

/-! ## Build-variable classification (instruction.ts, `isBuildVariable`) -/

/-- Modelled from the spec: `Line.isBefore` (line.ts is not in src/): the
instruction's start line precedes the queried line. -/
def lineIsBefore (l line : Nat) : Bool := l < line

/-- An ENV instruction as `isBuildVariable` consults it. -/
structure EnvM where
  line : Nat
  props : List DeclProp
deriving DecidableEq, Repr

/-- An ARG instruction as `isBuildVariable` consults it (`getProperty` may
be null). -/
structure ArgM where
  line : Nat
  prop : Option DeclProp
deriving DecidableEq, Repr

/-- Mirrors `Instruction.isBuildVariable` (instruction.ts lines 590-623),
with the owning document's collaborators (`getInitialARGs` and the
containing image's `getENVs`/`getARGs`) passed as explicit lists: on a
FROM, scan the initial ARGs for the name (true or undefined); otherwise
scan the stage's ENVs backward (any hit is false), then its ARGs backward
(any hit is true), else undefined. -/
def isBuildVariable (keyword : Buf) (initialArgProps : List (Option DeclProp))
    (envs : List EnvM) (argsL : List ArgM) (v : Buf) (line : Nat) : Option Bool :=
  if keyword = kwFROM then
    if initialArgProps.any (fun p =>
        match p with
        | some q => q.name = v
        | none => false) then some true
    else none
  else if (envs.reverse).any (fun e => lineIsBefore e.line line && e.props.any (·.name = v)) then
    some false
  else if (argsL.reverse).any (fun a =>
      lineIsBefore a.line line &&
        match a.prop with
        | some p => p.name = v
        | none => false) then some true
  else none

/-! ## Concrete buffers used by the claims -/

/-- The two-stage document of spec §8.4. -/
def c1buf : Buf := "ARG v=1\nFROM a\nARG v\nRUN echo $v\nFROM b\nARG v=2\nRUN echo $v".toList

/-- A declaration whose quoted name is closed right before the `=`. -/
def c3buf : Buf := "ARG \"v\"=x".toList

/-- A directive line whose value is nothing but whitespace. -/
def c6buf : Buf := "# a= ".toList

/-- An instruction with an escaped dollar sign in its argument. -/
def c7buf : Buf := "RUN a\\$b".toList

/-- An invalid escape directive value. -/
def c4buf : Buf := "# escape=a".toList

/-- A directive-shaped comment on the second line. -/
def c5buf : Buf := "# comment\n# escape=`".toList

/-- A directive whose name is cased differently. -/
def c10buf : Buf := "# Escape=`".toList

/-! ## Theorems for the claims -/

/-- C9: parsing the empty string yields a document with no instructions, no
comments, no directive, no initial ARGs and the default escape character
`\`; its containing image is the document itself at position (0,0) and null
at (0,1). -/
theorem empty_input_model :
    parse [] = ⟨none, [], [], '\\'⟩ ∧
    getInitialARGs (docModelOf []) = [] ∧
    getContainingImage [] (docModelOf []) ⟨0, 0⟩ = some .wholeDoc ∧
    getContainingImage [] (docModelOf []) ⟨0, 1⟩ = none := by decide

/-- C10: any casing of "escape" resolves to the escape directive kind, and
parsing "# Escape=\x60" records a directive (not a comment) whose name text
keeps its original casing while its kind is the escape kind. -/
theorem directive_case_insensitive :
    (∀ nm : Buf, toLowerBuf nm = "escape".toList → directiveKind nm = some .escape) ∧
    (parse c10buf).directive = some (mkRng c10buf 0 10, mkRng c10buf 2 8, mkRng c10buf 9 10) ∧
    rangeText c10buf (mkRng c10buf 2 8) = "Escape".toList ∧
    directiveKind "Escape".toList = some .escape ∧
    (parse c10buf).comments = [] ∧
    (parse c10buf).escapeChar = '`' := by
  refine ⟨fun nm h => by simp [directiveKind, h], by decide, by decide, by decide,
    by decide, by decide⟩

/-- Witness for C10 at a concrete casing. -/
theorem directive_case_insensitive_witness :
    directiveKind "EsCaPe".toList = some .escape :=
  directive_case_insensitive.1 "EsCaPe".toList (by decide)

/-- C4: whenever the leading scan produced a directive of the escape kind,
the escape character of the parse is the directive's value exactly when
that value is a one-character backtick or backslash, and otherwise stays
`\`, the directive's ranges being recorded either way; concretely,
"# escape=a" keeps `\` while recording name range "escape" and value range
"a". -/
theorem escape_directive_validation :
    (∀ (b : Buf) (lr nr vr : Rng), getDirectiveSymbol b = some (.dir lr nr vr) →
      directiveKind (rangeText b nr) = some .escape →
      (parse b).directive = some (lr, nr, vr) ∧
      (parse b).escapeChar =
        (if rangeText b vr = ['`'] then '`'
         else if rangeText b vr = ['\\'] then '\\' else '\\')) ∧
    (parse c4buf).escapeChar = '\\' ∧
    (parse c4buf).directive = some (mkRng c4buf 0 10, mkRng c4buf 2 8, mkRng c4buf 9 10) ∧
    rangeText c4buf (mkRng c4buf 2 8) = "escape".toList ∧
    rangeText c4buf (mkRng c4buf 9 10) = "a".toList := by
  refine ⟨?_, by decide, by decide, by decide, by decide⟩
  intro b lr nr vr h hk
  unfold parse
  rw [h]
  exact ⟨rfl, by simp [computeEscape, hk]⟩

/-- Witness for C4's universal clause at the concrete invalid directive. -/
theorem escape_directive_validation_witness :
    (parse c4buf).directive = some (mkRng c4buf 0 10, mkRng c4buf 2 8, mkRng c4buf 9 10) ∧
    (parse c4buf).escapeChar =
      (if rangeText c4buf (mkRng c4buf 9 10) = ['`'] then '`'
       else if rangeText c4buf (mkRng c4buf 9 10) = ['\\'] then '\\' else '\\') :=
  escape_directive_validation.1 c4buf (mkRng c4buf 0 10) (mkRng c4buf 2 8)
    (mkRng c4buf 9 10) (by decide) (by decide)

/-- C5: the parse's directive is exactly what the leading-line scan
returned, so a directive-shaped comment on the second line is a plain
comment: for "# comment\n# escape=\x60" the leading scan sees a comment,
`getDirective()` is null, the escape character stays `\`, and both lines
land in the comment list. -/
theorem directive_exclusivity :
    (∀ b : Buf, (parse b).directive =
      (match getDirectiveSymbol b with
       | some (.dir lr nr vr) => some (lr, nr, vr)
       | some (.comm _) => none
       | none => none)) ∧
    (∀ (b : Buf) (r : Rng), getDirectiveSymbol b = some (.comm r) →
      (parse b).directive = none ∧ (parse b).escapeChar = '\\') ∧
    getDirectiveSymbol c5buf = some (.comm (mkRng c5buf 0 9)) ∧
    (parse c5buf).directive = none ∧
    (parse c5buf).escapeChar = '\\' ∧
    (parse c5buf).comments = [mkRng c5buf 0 9, mkRng c5buf 10 20] := by
  refine ⟨?_, ?_, by decide, by decide, by decide, by decide⟩
  · intro b
    unfold parse
    rcases h : getDirectiveSymbol b with _ | s
    · rfl
    · cases s <;> rfl
  · intro b r h
    unfold parse
    rw [h]
    exact ⟨rfl, rfl⟩

/-- Witness for C5's universal clauses at the concrete two-line input. -/
theorem directive_exclusivity_witness :
    (parse c5buf).directive = none ∧ (parse c5buf).escapeChar = '\\' :=
  directive_exclusivity.2.1 c5buf (mkRng c5buf 0 9) (by decide)

/-- C1: in the two-stage document of §8.4 the name `v` resolves to "1" on
the first RUN line and to "2" on the second; in general an initial ARG
declaration is visible on a FROM's own line, while inside a stage a name
with no visible stage declaration resolves to the undefined marker even
when an initial ARG declares it. -/
theorem arg_scope_resolution :
    (resolveVariable (docModelOf c1buf) "v".toList 3 = some (some "1".toList) ∧
     resolveVariable (docModelOf c1buf) "v".toList 6 = some (some "2".toList)) ∧
    (∀ (doc : DocM) (name : Buf) (line : Nat) (p : DeclProp),
      isFromLine doc line = true → line < doc.lineCount →
      lastInitialMatch doc name = some p →
      resolveVariable doc name line = some p.value) ∧
    (∀ (doc : DocM) (name : Buf) (line f : Nat),
      isFromLine doc line = false → stageFromLine doc line = some f →
      nearestDecl doc name line = none →
      resolveVariable doc name line = none) := by
  refine ⟨⟨by decide, by decide⟩, ?_, ?_⟩
  · intro doc name line p hfrom hlt hmatch
    simp [resolveVariable, hfrom, hmatch, Nat.not_le.mpr hlt]
  · intro doc name line f hfrom _ hnear
    unfold resolveVariable
    by_cases h1 : doc.lineCount ≤ line
    · simp [h1]
    · simp [h1, hfrom, hnear]

/-- Witness for C1's universal clauses on the §8.4 document. -/
theorem arg_scope_resolution_witness :
    resolveVariable (docModelOf c1buf) "v".toList 1 = some (some "1".toList) ∧
    resolveVariable (docModelOf c1buf) "x".toList 3 = none :=
  ⟨arg_scope_resolution.2.1 (docModelOf c1buf) "v".toList 1 ⟨"v".toList, some "1".toList⟩
      (by decide) (by decide) (by decide),
   arg_scope_resolution.2.2 (docModelOf c1buf) "x".toList 3 1 (by decide) (by decide)
      (by decide)⟩

/-- C2 counterexample: in the §8.4 document the only declaration of `v`
visible from line 3 is the valueless stage ARG, yet resolution returns the
initial value "1" rather than null, refuting "returns null when the
nearest visible declaration declares the name without a value". -/
theorem resolve_tristate_cex :
    visibleMatches (docModelOf c1buf) "v".toList 3 = [(DeclKind.argK, ⟨"v".toList, none⟩)] ∧
    resolveVariable (docModelOf c1buf) "v".toList 3 = some (some "1".toList) ∧
    (some (some "1".toList) : Option (Option Buf)) ≠ some none := by decide

/-- C2 amended: resolution is undefined exactly when the line is outside
the document or no applicable declaration is visible (initial ARGs on a
FROM line, stage declarations otherwise); a nearest visible declaration
with a value yields that value; a valueless one yields the last initial
ARG value of the name for an ARG (null when there is none), null for an
ENV. -/
theorem resolve_tristate_amended (doc : DocM) (name : Buf) (line : Nat) :
    (resolveVariable doc name line = none ↔
      doc.lineCount ≤ line ∨
      (line < doc.lineCount ∧ isFromLine doc line = true ∧ lastInitialMatch doc name = none) ∨
      (line < doc.lineCount ∧ isFromLine doc line = false ∧ nearestDecl doc name line = none)) ∧
    (∀ (v : Buf) (k : DeclKind) (p : DeclProp), line < doc.lineCount →
      isFromLine doc line = false → nearestDecl doc name line = some (k, p) →
      p.value = some v → resolveVariable doc name line = some (some v)) ∧
    (∀ (p : DeclProp), line < doc.lineCount →
      isFromLine doc line = false → nearestDecl doc name line = some (DeclKind.envK, p) →
      p.value = none → resolveVariable doc name line = some none) ∧
    (∀ (p : DeclProp), line < doc.lineCount →
      isFromLine doc line = false → nearestDecl doc name line = some (DeclKind.argK, p) →
      p.value = none →
      resolveVariable doc name line = some ((lastInitialMatch doc name).bind (·.value))) := by
  refine ⟨?_, ?_, ?_, ?_⟩
  · by_cases h1 : doc.lineCount ≤ line
    · simp [resolveVariable, h1]
    · by_cases h2 : isFromLine doc line
      · rcases h3 : lastInitialMatch doc name with _ | p
        · simp [resolveVariable, h1, h2, h3, Nat.lt_of_not_le h1]
        · simp [resolveVariable, h1, h2, h3]
      · rcases h3 : nearestDecl doc name line with _ | ⟨k, p⟩
        · simp [resolveVariable, h1, h2, h3, Nat.lt_of_not_le h1]
        · rcases hv : p.value with _ | v
          · rcases k with _ | _ <;>
              rcases h4 : lastInitialMatch doc name with _ | q <;>
              simp [resolveVariable, h1, h2, h3, hv, h4]
          · simp [resolveVariable, h1, h2, h3, hv]
  · intro v k p hlt hfrom hnear hv
    simp [resolveVariable, Nat.not_le.mpr hlt, hfrom, hnear, hv]
  · intro p hlt hfrom hnear hv
    simp [resolveVariable, Nat.not_le.mpr hlt, hfrom, hnear, hv]
  · intro p hlt hfrom hnear hv
    rcases h4 : lastInitialMatch doc name with _ | q <;>
      simp [resolveVariable, Nat.not_le.mpr hlt, hfrom, hnear, hv, h4]

/-- Witness for C2's amended clauses on the §8.4 document. -/
theorem resolve_tristate_amended_witness :
    resolveVariable (docModelOf c1buf) "v".toList 6 = some (some "2".toList) ∧
    resolveVariable (docModelOf c1buf) "v".toList 3 =
      some ((lastInitialMatch (docModelOf c1buf) "v".toList).bind (·.value)) :=
  ⟨(resolve_tristate_amended (docModelOf c1buf) "v".toList 6).2.1 "2".toList .argK
      ⟨"v".toList, some "2".toList⟩ (by decide) (by decide) (by decide) (by decide),
   (resolve_tristate_amended (docModelOf c1buf) "v".toList 3).2.2.2
      ⟨"v".toList, none⟩ (by decide) (by decide) (by decide) (by decide)⟩

/-- C3 counterexample: for the argument `"v"=x` — which begins with a
quote and whose character immediately preceding the first `=` is that same
quote — the name range is split at the `=` (it does not extend to the end
of the argument) and the value is "x", not null. -/
theorem property_name_quote_cex :
    (parse c3buf).instructions = [⟨"ARG".toList, mkRng c3buf 0 9, mkRng c3buf 0 3⟩] ∧
    getArguments c3buf '\\' ⟨"ARG".toList, mkRng c3buf 0 9, mkRng c3buf 0 3⟩ =
      [⟨"\"v\"=x".toList, mkRng c3buf 4 9⟩] ∧
    charAtI "\"v\"=x".toList 0 = some '"' ∧
    indexOfC "\"v\"=x".toList '=' = 3 ∧
    charAtI "\"v\"=x".toList (3 - 1) = some '"' ∧
    propGetNameRange c3buf ⟨"\"v\"=x".toList, mkRng c3buf 4 9⟩ = mkRng c3buf 4 7 ∧
    mkRng c3buf 4 7 ≠ mkRng c3buf 4 9 ∧
    (mkProperty c3buf '\\' ⟨"\"v\"=x".toList, mkRng c3buf 4 9⟩ none).value =
      some "x".toList := by decide

/-- C3 amended: when the argument begins with a quote that is NOT repeated
immediately before the first `=`, the `=` is treated as literal content
inside the quoted name (name range extends over the whole argument, value
null); when the opening quote is closed right before the `=`, or the
argument does not begin with a quote, the text before the `=` is the name
and the text after it is the raw value. -/
theorem property_name_quote_amended (b : Buf) (arg : ArgumentT) (esc : Char) (idx : Nat)
    (hidx : indexOfC arg.value '=' = (idx : Int)) :
    ((∃ q, (q = '"' ∨ q = '\'') ∧ charAtI arg.value 0 = some q ∧
        charAtI arg.value ((idx : Int) - 1) ≠ some q) →
      propGetNameRange b arg = arg.range ∧ (mkProperty b esc arg none).value = none) ∧
    (((charAtI arg.value 0 = some '"' ∧ charAtI arg.value ((idx : Int) - 1) = some '"') ∨
      (charAtI arg.value 0 = some '\'' ∧ charAtI arg.value ((idx : Int) - 1) = some '\'') ∨
      (charAtI arg.value 0 ≠ some '"' ∧ charAtI arg.value 0 ≠ some '\'')) →
      propGetNameRange b arg =
        ⟨arg.range.rstart, positionAt b (offsetAt b arg.range.rstart + idx)⟩) ∧
    (propGetNameRange b arg ≠ arg.range →
      (mkProperty b esc arg none).nameRange = propGetNameRange b arg ∧
      (mkProperty b esc arg none).value =
        some (propGetValue (rangeText b (propGetValueRange b arg)) esc)) := by
  have hne1 : ((idx : Nat) : Int) ≠ -1 := by omega
  refine ⟨?_, ?_, ?_⟩
  · rintro ⟨q, hq | hq, h0, hbefore⟩ <;> subst hq
    · have hrange : propGetNameRange b arg = arg.range := by
        simp [propGetNameRange, hidx, hne1, h0, hbefore]
      exact ⟨hrange, by simp [mkProperty, hrange]⟩
    · have hrange : propGetNameRange b arg = arg.range := by
        simp [propGetNameRange, hidx, hne1, h0, hbefore]
      exact ⟨hrange, by simp [mkProperty, hrange]⟩
  · intro hcond
    simp only [propGetNameRange, hidx]
    rw [if_pos hne1, if_pos hcond]
    simp
  · intro hne
    simp only [mkProperty]
    rw [if_neg hne]
    exact ⟨rfl, rfl⟩

/-- Witness for C3's amended clauses: the closed-quote argument `"v"=x`
splits at the `=`, and the unterminated-quote argument `"a=b` keeps the
whole argument as its name with a null value. -/
theorem property_name_quote_amended_witness :
    (propGetNameRange c3buf ⟨"\"v\"=x".toList, mkRng c3buf 4 9⟩ =
      ⟨(mkRng c3buf 4 9).rstart,
       positionAt c3buf (offsetAt c3buf (mkRng c3buf 4 9).rstart + 3)⟩) ∧
    (propGetNameRange "ARG \"a=b".toList ⟨"\"a=b".toList, mkRng "ARG \"a=b".toList 4 8⟩ =
      mkRng "ARG \"a=b".toList 4 8 ∧
     (mkProperty "ARG \"a=b".toList '\\' ⟨"\"a=b".toList, mkRng "ARG \"a=b".toList 4 8⟩
        none).value = none) :=
  ⟨(property_name_quote_amended c3buf ⟨"\"v\"=x".toList, mkRng c3buf 4 9⟩ '\\' 3
      (by decide)).2.1 (Or.inl ⟨by decide, by decide⟩),
   (property_name_quote_amended "ARG \"a=b".toList
      ⟨"\"a=b".toList, mkRng "ARG \"a=b".toList 4 8⟩ '\\' 2 (by decide)).1
      ⟨'"', Or.inl rfl, by decide, by decide⟩⟩

/-- Helper: the any-scan over optional initial-ARG properties is an
existence statement. -/
theorem any_opt_match (l : List (Option DeclProp)) (v : Buf) :
    (l.any (fun p =>
      match p with
      | some q => q.name = v
      | none => false)) = true ↔ ∃ q : DeclProp, some q ∈ l ∧ q.name = v := by
  rw [List.any_eq_true]
  constructor
  · rintro ⟨x, hx, hf⟩
    rcases x with _ | q
    · simp at hf
    · exact ⟨q, hx, by simpa using hf⟩
  · rintro ⟨q, hq, hname⟩
    exact ⟨some q, hq, by simpa using hname⟩

/-- Helper: the backward ENV scan of `isBuildVariable` is an existence
statement over the stage's ENV instructions. -/
theorem any_env_match (envs : List EnvM) (v : Buf) (line : Nat) :
    ((envs.reverse).any (fun e => lineIsBefore e.line line && e.props.any (·.name = v))) = true ↔
      ∃ e ∈ envs, e.line < line ∧ ∃ p ∈ e.props, p.name = v := by
  rw [List.any_eq_true]
  constructor
  · rintro ⟨e, he, hf⟩
    rw [List.mem_reverse] at he
    rw [Bool.and_eq_true, List.any_eq_true] at hf
    exact ⟨e, he, by simpa [lineIsBefore] using hf.1, by simpa using hf.2⟩
  · rintro ⟨e, he, hlt, p, hp, hname⟩
    refine ⟨e, List.mem_reverse.mpr he, ?_⟩
    rw [Bool.and_eq_true, List.any_eq_true]
    exact ⟨by simpa [lineIsBefore] using hlt, p, hp, by simpa using hname⟩

/-- Helper: the backward ARG scan of `isBuildVariable` is an existence
statement over the stage's ARG instructions. -/
theorem any_arg_match (argsL : List ArgM) (v : Buf) (line : Nat) :
    ((argsL.reverse).any (fun a =>
      lineIsBefore a.line line &&
        match a.prop with
        | some p => p.name = v
        | none => false)) = true ↔
      ∃ a ∈ argsL, a.line < line ∧ ∃ p : DeclProp, a.prop = some p ∧ p.name = v := by
  rw [List.any_eq_true]
  constructor
  · rintro ⟨a, ha, hf⟩
    rw [List.mem_reverse] at ha
    rw [Bool.and_eq_true] at hf
    rcases hp : a.prop with _ | p
    · rw [hp] at hf
      simp at hf
    · rw [hp] at hf
      exact ⟨a, ha, by simpa [lineIsBefore] using hf.1, p, hp, by simpa using hf.2⟩
  · rintro ⟨a, ha, hlt, p, hp, hname⟩
    refine ⟨a, List.mem_reverse.mpr ha, ?_⟩
    rw [Bool.and_eq_true, hp]
    exact ⟨by simpa [lineIsBefore] using hlt, by simpa using hname⟩

/-- C8: on a FROM instruction `isBuildVariable` consults only the initial
ARG declarations and never answers false; on any other instruction it
answers false exactly when a stage ENV before the line declares the name,
true exactly when no such ENV exists but a stage ARG before the line
declares it, and undefined when neither does. -/
theorem build_variable_tristate (keyword : Buf) (initialArgProps : List (Option DeclProp))
    (envs : List EnvM) (argsL : List ArgM) (v : Buf) (line : Nat) :
    (keyword = kwFROM →
      isBuildVariable keyword initialArgProps envs argsL v line ≠ some false ∧
      (isBuildVariable keyword initialArgProps envs argsL v line = some true ↔
        ∃ q : DeclProp, some q ∈ initialArgProps ∧ q.name = v) ∧
      (isBuildVariable keyword initialArgProps envs argsL v line = none ↔
        ¬ ∃ q : DeclProp, some q ∈ initialArgProps ∧ q.name = v)) ∧
    (keyword ≠ kwFROM →
      (isBuildVariable keyword initialArgProps envs argsL v line = some false ↔
        ∃ e ∈ envs, e.line < line ∧ ∃ p ∈ e.props, p.name = v) ∧
      (isBuildVariable keyword initialArgProps envs argsL v line = some true ↔
        (¬ ∃ e ∈ envs, e.line < line ∧ ∃ p ∈ e.props, p.name = v) ∧
        ∃ a ∈ argsL, a.line < line ∧ ∃ p : DeclProp, a.prop = some p ∧ p.name = v) ∧
      (isBuildVariable keyword initialArgProps envs argsL v line = none ↔
        (¬ ∃ e ∈ envs, e.line < line ∧ ∃ p ∈ e.props, p.name = v) ∧
        ¬ ∃ a ∈ argsL, a.line < line ∧ ∃ p : DeclProp, a.prop = some p ∧ p.name = v)) := by
  constructor
  · intro h
    unfold isBuildVariable
    rw [if_pos h]
    rcases h2 : (initialArgProps.any (fun p =>
      match p with
      | some q => q.name = v
      | none => false)) with _ | _
    · rw [if_neg (by simp [h2])]
      refine ⟨by simp, ?_, ?_⟩
      · simp [← any_opt_match initialArgProps v, h2]
      · simp [← any_opt_match initialArgProps v, h2]
    · rw [if_pos (by simp [h2])]
      refine ⟨by simp, ?_, ?_⟩
      · simp [← any_opt_match initialArgProps v, h2]
      · simp [← any_opt_match initialArgProps v, h2]
  · intro h
    unfold isBuildVariable
    rw [if_neg h]
    rcases h2 : ((envs.reverse).any
        (fun e => lineIsBefore e.line line && e.props.any (·.name = v))) with _ | _
    · rw [if_neg (by simp [h2])]
      rcases h3 : ((argsL.reverse).any (fun a =>
          lineIsBefore a.line line &&
            match a.prop with
            | some p => p.name = v
            | none => false)) with _ | _
      · rw [if_neg (by simp [h3])]
        simp [← any_env_match envs v line, ← any_arg_match argsL v line, h2, h3]
      · rw [if_pos (by simp [h3])]
        simp [← any_env_match envs v line, ← any_arg_match argsL v line, h2, h3]
    · rw [if_pos (by simp [h2])]
      simp [← any_env_match envs v line, ← any_arg_match argsL v line, h2]

/-- Witness for C8 at a concrete stage: an ENV declaration of the name
before the line forces false on a RUN, and the FROM branch answers true
from the initial ARGs. -/
theorem build_variable_tristate_witness :
    isBuildVariable "RUN".toList [] [⟨1, [⟨"v".toList, some "x".toList⟩]⟩]
      [⟨2, some ⟨"v".toList, none⟩⟩] "v".toList 3 = some false ∧
    isBuildVariable kwFROM [some ⟨"v".toList, some "1".toList⟩] [] [] "v".toList 1 =
      some true :=
  ⟨((build_variable_tristate "RUN".toList [] [⟨1, [⟨"v".toList, some "x".toList⟩]⟩]
      [⟨2, some ⟨"v".toList, none⟩⟩] "v".toList 3).2 (by decide)).1.mpr
      ⟨⟨1, [⟨"v".toList, some "x".toList⟩]⟩, by simp, by decide,
       ⟨"v".toList, some "x".toList⟩, by simp, rfl⟩,
   (((build_variable_tristate kwFROM [some ⟨"v".toList, some "1".toList⟩] [] []
      "v".toList 1).1 rfl).2.1).mpr ⟨⟨"v".toList, some "1".toList⟩, by simp, rfl⟩⟩

/-- C7: in the argument-splitting loop, an escape character immediately
followed by `$` appends both characters to the argument text, while an
escape character followed by any other non-whitespace character appends
only that character; the variable scanner steps over an escaped `$`
without emitting a variable; and on `RUN a\$b` the produced argument text
is `a\$b` with no variable found. -/
theorem escaped_dollar_preserved :
    (∀ (b : Buf) (offset : Nat) (esc : Char) (fa : Buf) (fuel i : Nat) (s : ArgsState),
      isWhitespace esc = false →
      charAt fa i = some esc → charAt fa (i + 1) = some '$' → s.ewd = false →
      argLoop b offset esc fa (fuel + 1) i s =
        argLoop b offset esc fa fuel (i + 2)
          { s with ewd := false, escaping := false,
                   escapedArg := s.escapedArg ++ [esc, '$'],
                   found := if s.found = -1 then (i : Int) else s.found }) ∧
    (∀ (b : Buf) (offset : Nat) (esc : Char) (fa : Buf) (fuel i : Nat) (s : ArgsState)
        (c : Char),
      isWhitespace esc = false →
      charAt fa i = some esc → charAt fa (i + 1) = some c →
      isWhitespace c = false → c ≠ '$' → s.ewd = false →
      argLoop b offset esc fa (fuel + 1) i s =
        argLoop b offset esc fa fuel (i + 2)
          { s with ewd := false, escaping := false,
                   escapedArg := s.escapedArg ++ [c],
                   found := if s.found = -1 then (i : Int) else s.found }) ∧
    (∀ (b : Buf) (offset : Nat) (defd : Buf → Nat → Bool) (build : Buf → Nat → Option Bool)
        (arg : Buf) (esc : Char) (fuel i : Nat) (vars : List VariableT),
      charAt arg i = some esc → charAt arg (i + 1) = some '$' →
      varLoop b offset defd build arg esc (fuel + 1) i vars =
        varLoop b offset defd build arg esc fuel (i + 2) vars) ∧
    ((parse c7buf).instructions = [⟨"RUN".toList, mkRng c7buf 0 8, mkRng c7buf 0 3⟩] ∧
     getArguments c7buf '\\' ⟨"RUN".toList, mkRng c7buf 0 8, mkRng c7buf 0 3⟩ =
       [⟨"a\\$b".toList, mkRng c7buf 4 8⟩] ∧
     parseVariables c7buf 4 (fun _ _ => false) (fun _ _ => none) "a\\$b".toList '\\' = []) := by
  refine ⟨?_, ?_, ?_, by decide, by decide, by decide⟩
  · intro b offset esc fa fuel i s hwsesc hi hnext hewd
    have h1 : esc ≠ ' ' ∧ esc ≠ '\t' ∧ esc ≠ '\r' ∧ esc ≠ '\n' := by
      simpa [isWhitespace] using hwsesc
    simp only [argLoop, hi, hnext, hwsesc, Bool.false_eq_true, if_false, if_pos rfl]
    simp [hewd]
  · intro b offset esc fa fuel i s c hwsesc hi hnext hwsc hne hewd
    have h1 : c ≠ ' ' ∧ c ≠ '\t' ∧ c ≠ '\r' ∧ c ≠ '\n' := by
      simpa [isWhitespace] using hwsc
    simp only [argLoop, hi, hnext, hwsesc, Bool.false_eq_true, if_false, if_pos rfl]
    simp [hewd, h1.1, h1.2.1, h1.2.2.1, h1.2.2.2, hne]
  · intro b offset defd build arg esc fuel i vars hi hnext
    simp only [varLoop, hi, hnext, if_pos rfl]
    simp

/-- Witness for C7's step clauses at a concrete state. -/
theorem escaped_dollar_preserved_witness :
    argLoop c7buf 4 '\\' "a\\$b".toList 5 1 ⟨0, -1, ['a'], false, false, false, false, []⟩ =
      argLoop c7buf 4 '\\' "a\\$b".toList 4 3
        ⟨0, -1, ['a', '\\', '$'], false, false, false, false, []⟩ ∧
    varLoop c7buf 4 (fun _ _ => false) (fun _ _ => none) "a\\$b".toList '\\' 5 1 [] =
      varLoop c7buf 4 (fun _ _ => false) (fun _ _ => none) "a\\$b".toList '\\' 4 3 [] :=
  ⟨escaped_dollar_preserved.1 c7buf 4 '\\' "a\\$b".toList 4 1
      ⟨0, -1, ['a'], false, false, false, false, []⟩ (by decide) (by decide) (by decide) rfl,
   escaped_dollar_preserved.2.2.1 c7buf 4 (fun _ _ => false) (fun _ _ => none)
      "a\\$b".toList '\\' 4 1 [] (by decide) (by decide)⟩

/-- Helper: the line-table walk of `posFromOffsets` lands on a table entry
at or before the offset, with the next entry (if any) strictly beyond it. -/
theorem pfo_spec (o : Nat) :
    ∀ (xs : List Nat) (l s : Nat), s ≤ o →
      ∃ s', (s :: xs).get? ((posFromOffsets xs o l s).line - l) = some s' ∧ s' ≤ o ∧
        (posFromOffsets xs o l s).character = o - s' ∧
        (∀ nxt, (s :: xs).get? ((posFromOffsets xs o l s).line - l + 1) = some nxt → o < nxt) ∧
        l ≤ (posFromOffsets xs o l s).line := by
  intro xs
  induction xs with
  | nil =>
    intro l s hs
    refine ⟨s, by simp [posFromOffsets], hs, by simp [posFromOffsets], ?_, ?_⟩
    · intro nxt hnxt
      simp [posFromOffsets] at hnxt
    · simp [posFromOffsets]
  | cons x xs ih =>
    intro l s hs
    by_cases hx : x ≤ o
    · obtain ⟨s', h1, h2, h3, h4, h5⟩ := ih (l + 1) x hx
      have hline : posFromOffsets (x :: xs) o l s = posFromOffsets xs o (l + 1) x := by
        simp [posFromOffsets, hx]
      rw [hline]
      have hsub : (posFromOffsets xs o (l + 1) x).line - l =
          ((posFromOffsets xs o (l + 1) x).line - (l + 1)) + 1 := by omega
      refine ⟨s', ?_, h2, h3, ?_, by omega⟩
      · rw [hsub]
        simpa using h1
      · intro nxt hnxt
        apply h4
        rw [hsub] at hnxt
        simpa using hnxt
    · have hline : posFromOffsets (x :: xs) o l s = ⟨l, o - s⟩ := by
        simp [posFromOffsets, hx]
      rw [hline]
      refine ⟨s, by simp, hs, rfl, ?_, le_refl l⟩
      intro nxt hnxt
      simp at hnxt
      omega

/-- Helper: reading a position produced by `positionAt` back through
`offsetAt` recovers the offset, for offsets within the buffer. -/
theorem offsetAt_positionAt (b : Buf) (o : Nat) (ho : o ≤ b.length) :
    offsetAt b (positionAt b o) = o := by
  have hmin : min o b.length = o := Nat.min_eq_left ho
  obtain ⟨s', h1, h2, h3, h4, _⟩ := pfo_spec o (lineOffsetsAux b 0) 0 0 (Nat.zero_le o)
  simp only [Nat.sub_zero] at h1 h4
  have hpos : positionAt b o = posFromOffsets (lineOffsetsAux b 0) o 0 0 := by
    simp [positionAt, hmin]
  set p := posFromOffsets (lineOffsetsAux b 0) o 0 0 with hp
  have hlen : p.line < (lineOffsets b).length := by
    have := List.get?_eq_some.mp h1
    simpa [lineOffsets] using this.1
  rw [hpos]
  unfold offsetAt
  rw [if_neg (by omega)]
  have hget : ((0 :: lineOffsetsAux b 0).get? p.line).getD 0 = s' := by
    rw [h1]
    rfl
  simp only [lineOffsets] at hget ⊢
  rw [hget, h3]
  rcases hnext : (0 :: lineOffsetsAux b 0).get? (p.line + 1) with _ | nxt
  · simp only [hnext, Option.getD_none]
    omega
  · have := h4 nxt hnext
    simp only [hnext, Option.getD_some]
    omega

/-- Helper: every character of a `textAt` slice sits at an in-range
offset of the buffer. -/
theorem mem_textAt {b : Buf} {s e : Nat} {c : Char} (h : c ∈ textAt b s e) :
    ∃ m, s ≤ m ∧ m < e ∧ charAt b m = some c := by
  unfold textAt at h
  obtain ⟨idx, hidx⟩ := List.get?_of_mem h
  rw [List.get?_drop] at hidx
  have hlt : s + idx < e := by
    by_contra hge
    rw [List.get?_eq_none.mpr (by simp; omega)] at hidx
    exact Option.noConfusion hidx
  have : (b.take e).get? (s + idx) = b.get? (s + idx) := List.get?_take hlt
  rw [this] at hidx
  exact ⟨s + idx, Nat.le_add_right s idx, hlt, hidx⟩

/-- All characters at offsets in `[lo, hi)` are spaces or tabs. -/
def wsRun (b : Buf) (lo hi : Nat) : Prop :=
  ∀ m, lo ≤ m → m < hi → charAt b m = some ' ' ∨ charAt b m = some '\t'

/-- All characters at offsets in `[lo, hi)` exist and are none of space,
tab, carriage return or newline. -/
def nonWsRun (b : Buf) (lo hi : Nat) : Prop :=
  ∀ m, lo ≤ m → m < hi →
    ∃ c, charAt b m = some c ∧ c ≠ ' ' ∧ c ≠ '\t' ∧ c ≠ '\r' ∧ c ≠ '\n'

/-- Invariant of the `directiveValue` loop: started after the `=` at
`j1 - 1` in the all-whitespace-so-far state, it returns a `valueStart`
that is either unset — with everything up to the line end being
horizontal whitespace — or set to the first non-whitespace offset, with
`valueEnd` (or the end of the buffer) delimiting an unbroken run of
non-whitespace characters. -/
theorem dirValue_spec (b : Buf) (j1 : Nat) :
    ∀ (fuel k : Nat) (vs ve : Int),
      b.length ≤ fuel + k → j1 ≤ k →
      ((vs = -1 ∧ ve = -1 ∧ wsRun b j1 k) ∨
       (∃ s : Nat, vs = (s : Int) ∧ ve = -1 ∧ s < b.length ∧ nonWsRun b s k) ∨
       (∃ s e : Nat, vs = (s : Int) ∧ ve = (e : Int) ∧ s < b.length ∧ e ≤ b.length ∧
          nonWsRun b s e)) →
      (dirValue b fuel k vs ve).2.2 ≤ b.length ∧
      (((dirValue b fuel k vs ve).1 = -1 ∧ wsRun b j1 (dirValue b fuel k vs ve).2.2) ∨
       (∃ s : Nat, (dirValue b fuel k vs ve).1 = (s : Int) ∧ s < b.length ∧
         (((dirValue b fuel k vs ve).2.1 = -1 ∧ nonWsRun b s b.length) ∨
          (∃ e : Nat, (dirValue b fuel k vs ve).2.1 = (e : Int) ∧ e ≤ b.length ∧
             nonWsRun b s e)))) := by
  intro fuel
  induction fuel with
  | zero =>
    intro k vs ve hfuel hj1 hinv
    have hk : b.length ≤ k := by omega
    refine ⟨by simp [dirValue], ?_⟩
    rcases hinv with ⟨h1, h2, h3⟩ | ⟨s, h1, h2, h3, h4⟩ | ⟨s, e, h1, h2, h3, h4, h5⟩
    · exact Or.inl ⟨by simp [dirValue, h1], by
        simpa [dirValue, h2] using fun m hm1 hm2 => h3 m hm1 (by omega)⟩
    · exact Or.inr ⟨s, by simp [dirValue, h1], h3,
        Or.inl ⟨by simp [dirValue, h2], fun m hm1 hm2 => h4 m hm1 (by omega)⟩⟩
    · exact Or.inr ⟨s, by simp [dirValue, h1], h3,
        Or.inr ⟨e, by simp [dirValue, h2], h4, h5⟩⟩
  | succ fuel ih =>
    intro k vs ve hfuel hj1 hinv
    rcases hc : charAt b k with _ | c
    · have hk : b.length ≤ k := by
        by_contra hlt
        rw [charAt, List.get?_eq_get (by omega)] at hc
        exact Option.noConfusion hc
      refine ⟨by simp [dirValue, hc], ?_⟩
      rcases hinv with ⟨h1, h2, h3⟩ | ⟨s, h1, h2, h3, h4⟩ | ⟨s, e, h1, h2, h3, h4, h5⟩
      · exact Or.inl ⟨by simp [dirValue, hc, h1], by
          simpa [dirValue, hc, h2] using fun m hm1 hm2 => h3 m hm1 (by omega)⟩
      · exact Or.inr ⟨s, by simp [dirValue, hc, h1], h3,
          Or.inl ⟨by simp [dirValue, hc, h2], fun m hm1 hm2 => h4 m hm1 (by omega)⟩⟩
      · exact Or.inr ⟨s, by simp [dirValue, hc, h1], h3,
          Or.inr ⟨e, by simp [dirValue, hc, h2], h4, h5⟩⟩
    · have hklen : k < b.length := by
        by_contra hge
        rw [charAt, List.get?_eq_none.mpr (by omega)] at hc
        exact Option.noConfusion hc
      by_cases hnl : c = '\r' ∨ c = '\n'
      · have hstep : dirValue b (fuel + 1) k vs ve =
            (vs, if vs ≠ -1 ∧ ve = -1 then (k : Int) else ve, k) := by
          simp [dirValue, hc, hnl]
        rw [hstep]
        refine ⟨Nat.le_of_lt hklen, ?_⟩
        rcases hinv with ⟨h1, h2, h3⟩ | ⟨s, h1, h2, h3, h4⟩ | ⟨s, e, h1, h2, h3, h4, h5⟩
        · exact Or.inl ⟨h1, by simp [h1, h2]; exact h3⟩
        · refine Or.inr ⟨s, h1, h3, Or.inr ⟨k, ?_, by omega, h4⟩⟩
          have : vs ≠ -1 ∧ ve = -1 := ⟨by omega, h2⟩
          simp [this]
        · refine Or.inr ⟨s, h1, h3, Or.inr ⟨e, ?_, h4, h5⟩⟩
          have : ¬ (vs ≠ -1 ∧ ve = -1) := by
            intro hcon
            omega
          simp [this, h2]
      · by_cases hws : c = '\t' ∨ c = ' '
        · have hstep : dirValue b (fuel + 1) k vs ve =
              dirValue b fuel (k + 1) vs (if vs ≠ -1 ∧ ve = -1 then (k : Int) else ve) := by
            have hnl' : ¬ (c = '\r' ∨ c = '\n') := hnl
            simp [dirValue, hc, hnl', hws]
          rw [hstep]
          apply ih (k + 1) vs _ (by omega) (by omega)
          rcases hinv with ⟨h1, h2, h3⟩ | ⟨s, h1, h2, h3, h4⟩ | ⟨s, e, h1, h2, h3, h4, h5⟩
          · refine Or.inl ⟨h1, ?_, ?_⟩
            · simp [h1, h2]
            · intro m hm1 hm2
              by_cases hm : m = k
              · subst hm
                rcases hws with h | h <;> subst h <;> simp [hc]
              · exact h3 m hm1 (by omega)
          · refine Or.inr (Or.inr ⟨s, k, h1, ?_, h3, by omega, ?_⟩)
            · have : vs ≠ -1 ∧ ve = -1 := ⟨by omega, h2⟩
              simp [this]
            · intro m hm1 hm2
              exact h4 m hm1 hm2
          · refine Or.inr (Or.inr ⟨s, e, h1, ?_, h3, h4, h5⟩)
            have : ¬ (vs ≠ -1 ∧ ve = -1) := by
              intro hcon
              omega
            simp [this, h2]
        · have hstep : dirValue b (fuel + 1) k vs ve =
              dirValue b fuel (k + 1) (if vs = -1 then (k : Int) else vs) ve := by
            have hnl' : ¬ (c = '\r' ∨ c = '\n') := hnl
            have hws' : ¬ (c = '\t' ∨ c = ' ') := hws
            simp [dirValue, hc, hnl', hws']
          rw [hstep]
          apply ih (k + 1) _ ve (by omega) (by omega)
          have hcgood : ∃ c', charAt b k = some c' ∧ c' ≠ ' ' ∧ c' ≠ '\t' ∧ c' ≠ '\r' ∧
              c' ≠ '\n' := ⟨c, hc, by tauto, by tauto, by tauto, by tauto⟩
          rcases hinv with ⟨h1, h2, h3⟩ | ⟨s, h1, h2, h3, h4⟩ | ⟨s, e, h1, h2, h3, h4, h5⟩
          · refine Or.inr (Or.inl ⟨k, by simp [h1], h2, hklen, ?_⟩)
            intro m hm1 hm2
            have hm : m = k := by omega
            subst hm
            exact hcgood
          · refine Or.inr (Or.inl ⟨s, ?_, h2, h3, ?_⟩)
            · have : ¬ vs = -1 := by omega
              simp [this, h1]
            · intro m hm1 hm2
              by_cases hm : m = k
              · subst hm
                exact hcgood
              · exact h4 m hm1 (by omega)
          · refine Or.inr (Or.inr ⟨s, e, ?_, h2, h3, h4, h5⟩)
            have : ¬ vs = -1 := by omega
            simp [this, h1]

/-- Invariant of the comment-body loop of `getDirectiveSymbol`: when it
returns a directive, the name range is a nonempty run of non-whitespace
characters, and the value range is either a run of non-whitespace
characters or (when no non-whitespace character followed the `=`) a run
of horizontal whitespace. -/
theorem dirName_spec (b : Buf) :
    ∀ (fuel cs j : Nat) (ds de : Int),
      b.length ≤ fuel + j →
      ((ds = -1 ∧ de = -1) ∨
       (∃ s : Nat, ds = (s : Int) ∧ de = -1 ∧ s < j ∧ s < b.length ∧ nonWsRun b s j) ∨
       (∃ s e : Nat, ds = (s : Int) ∧ de = (e : Int) ∧ s < e ∧ s < b.length ∧
          e < b.length ∧ nonWsRun b s e)) →
      ∀ lr nr vr, dirName b fuel cs j ds de = some (.dir lr nr vr) →
        (∃ ns ne : Nat, ns < ne ∧ ne ≤ b.length ∧ nr = mkRng b ns ne ∧ nonWsRun b ns ne) ∧
        ((∃ vs ve : Nat, vs ≤ b.length ∧ ve ≤ b.length ∧ vr = mkRng b vs ve ∧
            nonWsRun b vs ve) ∨
         (∃ vs ve : Nat, vs ≤ b.length ∧ ve ≤ b.length ∧ vr = mkRng b vs ve ∧
            wsRun b vs ve)) := by
  intro fuel
  induction fuel with
  | zero =>
    intro cs j ds de _ _ lr nr vr h
    simp [dirName] at h
  | succ fuel ih =>
    intro cs j ds de hfuel hinv lr nr vr h
    rcases hc : charAt b j with _ | c
    · rw [dirName, hc] at h
      exact Option.noConfusion h
    · have hjlen : j < b.length := by
        by_contra hge
        rw [charAt, List.get?_eq_none.mpr (by omega)] at hc
        exact Option.noConfusion hc
      by_cases hws : c = ' ' ∨ c = '\t'
      · have hstep : dirName b (fuel + 1) cs j ds de =
            dirName b fuel cs (j + 1) ds (if ds ≠ -1 ∧ de = -1 then (j : Int) else de) := by
          simp [dirName, hc, hws]
        rw [hstep] at h
        refine ih cs (j + 1) ds _ (by omega) ?_ lr nr vr h
        rcases hinv with ⟨h1, h2⟩ | ⟨s, h1, h2, h3, h4, h5⟩ | ⟨s, e, h1, h2, h3, h4, h5, h6⟩
        · refine Or.inl ⟨h1, ?_⟩
          have hcond : ¬ (ds ≠ -1 ∧ de = -1) := by
            intro hcon
            omega
          rw [if_neg hcond]
          exact h2
        · refine Or.inr (Or.inr ⟨s, j, h1, ?_, h3, h4, hjlen, h5⟩)
          have hcond : ds ≠ -1 ∧ de = -1 := ⟨by omega, h2⟩
          rw [if_pos hcond]
        · refine Or.inr (Or.inr ⟨s, e, h1, ?_, h3, h4, h5, h6⟩)
          have hcond : ¬ (ds ≠ -1 ∧ de = -1) := by
            intro hcon
            omega
          rw [if_neg hcond]
          exact h2
      · by_cases hnl : c = '\r' ∨ c = '\n'
        · have hstep : dirName b (fuel + 1) cs j ds de = some (.comm (mkRng b cs j)) := by
            have hws' : ¬ (c = ' ' ∨ c = '\t') := hws
            simp [dirName, hc, hws', hnl]
          rw [hstep] at h
          simp at h
        · by_cases heq : c = '='
          · subst heq
            have hws' : ¬ ('=' = ' ' ∨ '=' = '\t') := by decide
            have hnl' : ¬ ('=' = '\r' ∨ '=' = '\n') := by decide
            rcases hinv with ⟨h1, h2⟩ | ⟨s, h1, h2, h3, h4, h5⟩ |
                ⟨s, e, h1, h2, h3, h4, h5, h6⟩
            · have hstep : dirName b (fuel + 1) cs j ds de =
                  some (.comm (mkRng b cs (dirValue b (b.length + 1) (j + 1) (-1) (-1)).2.2)) := by
                simp [dirName, hc, hws', hnl', h1]
              rw [hstep] at h
              simp at h
            · obtain ⟨hlineEnd, hpost⟩ := dirValue_spec b (j + 1) (b.length + 1) (j + 1)
                (-1) (-1) (by omega) (le_refl _)
                (Or.inl ⟨rfl, rfl, fun m hm1 hm2 => absurd hm1 (by omega)⟩)
              have hds : ¬ ds = -1 := by omega
              have hstep : dirName b (fuel + 1) cs j ds de =
                  some (.dir (mkRng b cs (dirValue b (b.length + 1) (j + 1) (-1) (-1)).2.2)
                    (mkRng b ds.toNat (j : Int).toNat)
                    (mkRng b (if (dirValue b (b.length + 1) (j + 1) (-1) (-1)).1 = -1
                        then ((j : Int) + 1) else (dirValue b (b.length + 1) (j + 1) (-1) (-1)).1).toNat
                      (if (dirValue b (b.length + 1) (j + 1) (-1) (-1)).1 = -1
                        then ((dirValue b (b.length + 1) (j + 1) (-1) (-1)).2.2 : Int)
                        else if (dirValue b (b.length + 1) (j + 1) (-1) (-1)).2.1 = -1
                        then (b.length : Int)
                        else (dirValue b (b.length + 1) (j + 1) (-1) (-1)).2.1).toNat)) := by
                simp [dirName, hc, hws', hnl', hds, h2]
              rw [hstep] at h
              simp only [Option.some.injEq, DirSym.dir.injEq] at h
              obtain ⟨hlr, hnr, hvr⟩ := h
              constructor
              · refine ⟨s, j, h3, by omega, ?_, h5⟩
                rw [← hnr, h1]
                simp
              · set v := dirValue b (b.length + 1) (j + 1) (-1) (-1) with hv
                rcases hpost with ⟨hv1, hwsrun⟩ | ⟨s', hv1, hslen, hsub⟩
                · refine Or.inr ⟨j + 1, v.2.2, by omega, hlineEnd, ?_, hwsrun⟩
                  rw [← hvr, hv1]
                  simp
                · have hne : ¬ v.1 = -1 := by omega
                  rcases hsub with ⟨hv21, hrun⟩ | ⟨e', hv21, helen, hrun⟩
                  · refine Or.inl ⟨s', b.length, by omega, le_refl _, ?_, hrun⟩
                    rw [← hvr, hv1]
                    simp [hne, hv21]
                  · refine Or.inl ⟨s', e', by omega, helen, ?_, hrun⟩
                    have hne2 : ¬ v.2.1 = -1 := by omega
                    rw [← hvr, hv1]
                    simp [hne, hne2, hv21]
            · obtain ⟨hlineEnd, hpost⟩ := dirValue_spec b (j + 1) (b.length + 1) (j + 1)
                (-1) (-1) (by omega) (le_refl _)
                (Or.inl ⟨rfl, rfl, fun m hm1 hm2 => absurd hm1 (by omega)⟩)
              have hds : ¬ ds = -1 := by omega
              have hde : ¬ de = -1 := by omega
              have hstep : dirName b (fuel + 1) cs j ds de =
                  some (.dir (mkRng b cs (dirValue b (b.length + 1) (j + 1) (-1) (-1)).2.2)
                    (mkRng b ds.toNat de.toNat)
                    (mkRng b (if (dirValue b (b.length + 1) (j + 1) (-1) (-1)).1 = -1
                        then ((j : Int) + 1) else (dirValue b (b.length + 1) (j + 1) (-1) (-1)).1).toNat
                      (if (dirValue b (b.length + 1) (j + 1) (-1) (-1)).1 = -1
                        then ((dirValue b (b.length + 1) (j + 1) (-1) (-1)).2.2 : Int)
                        else if (dirValue b (b.length + 1) (j + 1) (-1) (-1)).2.1 = -1
                        then (b.length : Int)
                        else (dirValue b (b.length + 1) (j + 1) (-1) (-1)).2.1).toNat)) := by
                simp [dirName, hc, hws', hnl', hds, hde]
              rw [hstep] at h
              simp only [Option.some.injEq, DirSym.dir.injEq] at h
              obtain ⟨hlr, hnr, hvr⟩ := h
              constructor
              · refine ⟨s, e, h3, by omega, ?_, h6⟩
                rw [← hnr, h1, h2]
                simp
              · set v := dirValue b (b.length + 1) (j + 1) (-1) (-1) with hv
                rcases hpost with ⟨hv1, hwsrun⟩ | ⟨s', hv1, hslen, hsub⟩
                · refine Or.inr ⟨j + 1, v.2.2, by omega, hlineEnd, ?_, hwsrun⟩
                  rw [← hvr, hv1]
                  simp
                · have hne : ¬ v.1 = -1 := by omega
                  rcases hsub with ⟨hv21, hrun⟩ | ⟨e', hv21, helen, hrun⟩
                  · refine Or.inl ⟨s', b.length, by omega, le_refl _, ?_, hrun⟩
                    rw [← hvr, hv1]
                    simp [hne, hv21]
                  · refine Or.inl ⟨s', e', by omega, helen, ?_, hrun⟩
                    have hne2 : ¬ v.2.1 = -1 := by omega
                    rw [← hvr, hv1]
                    simp [hne, hne2, hv21]
          · have hws' : ¬ (c = ' ' ∨ c = '\t') := hws
            have hnl' : ¬ (c = '\r' ∨ c = '\n') := hnl
            have hstep : dirName b (fuel + 1) cs j ds de =
                dirName b fuel cs (j + 1) (if ds = -1 then (j : Int) else ds) de := by
              simp [dirName, hc, hws', hnl', heq]
            rw [hstep] at h
            refine ih cs (j + 1) _ de (by omega) ?_ lr nr vr h
            have hcgood : ∃ c', charAt b j = some c' ∧ c' ≠ ' ' ∧ c' ≠ '\t' ∧ c' ≠ '\r' ∧
                c' ≠ '\n' := ⟨c, hc, by tauto, by tauto, by tauto, by tauto⟩
            rcases hinv with ⟨h1, h2⟩ | ⟨s, h1, h2, h3, h4, h5⟩ |
                ⟨s, e, h1, h2, h3, h4, h5, h6⟩
            · refine Or.inr (Or.inl ⟨j, by simp [h1], h2, by omega, hjlen, ?_⟩)
              intro m hm1 hm2
              have hm : m = j := by omega
              subst hm
              exact hcgood
            · refine Or.inr (Or.inl ⟨s, ?_, h2, by omega, h4, ?_⟩)
              · have : ¬ ds = -1 := by omega
                simp [this, h1]
              · intro m hm1 hm2
                by_cases hm : m = j
                · subst hm
                  exact hcgood
                · exact h5 m hm1 (by omega)
            · refine Or.inr (Or.inr ⟨s, e, ?_, h2, h3, h4, h5, h6⟩)
              have : ¬ ds = -1 := by omega
              simp [this, h1]

/-- A directive returned by the outer loop of `getDirectiveSymbol` comes
from the comment-body scan started at some `#`. -/
theorem dirOuter_dir (b : Buf) :
    ∀ (fuel i : Nat) (lr nr vr : Rng), dirOuter b fuel i = some (.dir lr nr vr) →
      ∃ cs, dirName b (b.length + 1) cs (cs + 1) (-1) (-1) = some (.dir lr nr vr) := by
  intro fuel
  induction fuel with
  | zero =>
    intro i lr nr vr h
    simp [dirOuter] at h
  | succ fuel ih =>
    intro i lr nr vr h
    rcases hc : charAt b i with _ | c
    · rw [dirOuter, hc] at h
      exact Option.noConfusion h
    · rw [dirOuter] at h
      rw [hc] at h
      simp only [] at h
      by_cases hws : c = ' ' ∨ c = '\t'
      · rw [if_pos hws] at h
        exact ih (i + 1) lr nr vr h
      · rw [if_neg hws] at h
        by_cases hnl : c = '\r' ∨ c = '\n'
        · rw [if_pos hnl] at h
          exact Option.noConfusion h
        · rw [if_neg hnl] at h
          by_cases hhash : c = '#'
          · rw [if_pos hhash] at h
            rcases hdn : dirName b (b.length + 1) i (i + 1) (-1) (-1) with _ | r
            · rw [hdn] at h
              exact ih (i + 1) lr nr vr h
            · rw [hdn] at h
              simp at h
              exact ⟨i, by rw [hdn, h]⟩
          · rw [if_neg hhash] at h
            exact Option.noConfusion h

/-- C6 counterexample: "# a= " parses as a directive whose value range
covers the single space after the `=`, so the resolved value string is
all whitespace — the trailing whitespace before EOF is not excluded. -/
theorem directive_trimming_cex :
    getDirectiveSymbol c6buf =
      some (.dir (mkRng c6buf 0 5) (mkRng c6buf 2 3) (mkRng c6buf 4 5)) ∧
    rangeText c6buf (mkRng c6buf 4 5) = [' '] := by decide

/-- C6 amended: for every parsed directive the resolved name string
contains no whitespace at all; the resolved value string contains no
whitespace provided it contains at least one non-whitespace character
(when nothing but whitespace follows the `=`, the whole whitespace run up
to the line end becomes the value). -/
theorem directive_trimming_amended (b : Buf) (lr nr vr : Rng)
    (h : getDirectiveSymbol b = some (.dir lr nr vr)) :
    (∀ c ∈ rangeText b nr, c ≠ ' ' ∧ c ≠ '\t' ∧ c ≠ '\r' ∧ c ≠ '\n') ∧
    ((∃ c ∈ rangeText b vr, c ≠ ' ' ∧ c ≠ '\t') →
      ∀ c ∈ rangeText b vr, c ≠ ' ' ∧ c ≠ '\t' ∧ c ≠ '\r' ∧ c ≠ '\n') := by
  obtain ⟨cs, hname⟩ := dirOuter_dir b (b.length + 1) 0 lr nr vr h
  obtain ⟨⟨ns, ne, hlt, hnelen, hnr, hnrun⟩, hval⟩ :=
    dirName_spec b (b.length + 1) cs (cs + 1) (-1) (-1) (by omega)
      (Or.inl ⟨rfl, rfl⟩) lr nr vr hname
  have hrt : ∀ (s e : Nat), s ≤ b.length → e ≤ b.length →
      rangeText b (mkRng b s e) = textAt b s e := by
    intro s e hs he
    unfold rangeText mkRng
    rw [offsetAt_positionAt b s hs, offsetAt_positionAt b e he]
  constructor
  · intro c hc
    rw [hnr, hrt ns ne (by omega) hnelen] at hc
    obtain ⟨m, hm1, hm2, hcm⟩ := mem_textAt hc
    obtain ⟨c', hc', hts⟩ := hnrun m hm1 hm2
    rw [hcm] at hc'
    obtain rfl := Option.some.inj hc'
    exact hts
  · rcases hval with ⟨vs, ve, hvs, hve, hvr, hrun⟩ | ⟨vs, ve, hvs, hve, hvr, hrun⟩
    · intro _ c hc
      rw [hvr, hrt vs ve hvs hve] at hc
      obtain ⟨m, hm1, hm2, hcm⟩ := mem_textAt hc
      obtain ⟨c', hc', hts⟩ := hrun m hm1 hm2
      rw [hcm] at hc'
      obtain rfl := Option.some.inj hc'
      exact hts
    · intro hex c _
      exfalso
      obtain ⟨c0, hc0, hty⟩ := hex
      rw [hvr, hrt vs ve hvs hve] at hc0
      obtain ⟨m, hm1, hm2, hcm⟩ := mem_textAt hc0
      rcases hrun m hm1 hm2 with hsp | htb
      · rw [hcm] at hsp
        exact hty.1 (Option.some.inj hsp)
      · rw [hcm] at htb
        exact hty.2 (Option.some.inj htb)

/-- Witness for C6's amended statement at the parsed "# escape=a". -/
theorem directive_trimming_amended_witness :
    (∀ c ∈ rangeText c4buf (mkRng c4buf 2 8), c ≠ ' ' ∧ c ≠ '\t' ∧ c ≠ '\r' ∧ c ≠ '\n') ∧
    ((∃ c ∈ rangeText c4buf (mkRng c4buf 9 10), c ≠ ' ' ∧ c ≠ '\t') →
      ∀ c ∈ rangeText c4buf (mkRng c4buf 9 10),
        c ≠ ' ' ∧ c ≠ '\t' ∧ c ≠ '\r' ∧ c ≠ '\n') :=
  directive_trimming_amended c4buf (mkRng c4buf 0 10) (mkRng c4buf 2 8) (mkRng c4buf 9 10)
    (by decide)

end DockerAst
